import Mathlib

/-!
Verification of the convex-fs transactional metadata engine.

This file gives a shallow embedding of the metadata state (files, blobs,
pending uploads), of the transactional operations (`commitFiles`,
`transact` with its move / copy / delete / setAttributes journal
operations), of the admin `restore` utility, of the background GC loops
(`gcExpiredUploads`, `gcOrphanedBlobs`), and of the stored-configuration
write (`ensureConfigStored`), each translated from the corresponding
source function.  Convex database records are modelled as lists; a
Convex `.unique()` index query is modelled by `findUnique`, which throws
when more than one record matches, and a Convex mutation's automatic
rollback on throw is modelled by `runMutation`.

The source patches and deletes records by document `_id`.  In every such
call the document was obtained immediately before from a successful
`.unique()` query on a key (file `path`, blob `blobId`, upload `blobId`),
so at the call site at most one record carries that key and updating by
key is equivalent; the existence guard of `patchFileAt` / `deleteFileAt`
mirrors Convex's throw when patching or deleting a document that no
longer exists (reachable, e.g., by a move whose dest equals its source).
-/

namespace ConvexFS

/-- File attributes: currently only the optional `expiresAt` timestamp. -/
structure FileAttributes where
  expiresAt : Option Int
deriving DecidableEq, Repr

/-- A record of the `files` table. -/
structure FileRec where
  path : String
  blobId : String
  attributes : Option FileAttributes
deriving DecidableEq, Repr

/-- A record of the `blobs` table. -/
structure BlobRec where
  blobId : String
  contentType : String
  size : Int
  refCount : Int
  updatedAt : Int
deriving DecidableEq, Repr

/-- A record of the `uploads` table; `contentType`/`size` are captured at
proxy-upload time and may be absent. -/
structure UploadRec where
  blobId : String
  expiresAt : Int
  contentType : Option String
  size : Option Int
deriving DecidableEq, Repr

/-- The metadata state: the three tables the claims are about. -/
structure St where
  files : List FileRec
  blobs : List BlobRec
  uploads : List UploadRec
deriving DecidableEq, Repr

/-- Conflict codes of the engine's optimistic-concurrency errors. -/
inductive ConflictCode
  | SOURCE_NOT_FOUND
  | SOURCE_CHANGED
  | DEST_EXISTS
  | DEST_NOT_FOUND
  | DEST_CHANGED
  | CAS_CONFLICT
deriving DecidableEq, Repr

/-- Payload of a `ConvexError` conflict: code, path, expected and found
blobId (`none` models JS `null`), and the 1-indexed operation number
(`none` when the throw site does not set it, as in `commitFiles`). -/
structure ConflictError where
  code : ConflictCode
  path : String
  expected : Option String
  found : Option String
  operationIndex : Option Nat
deriving DecidableEq, Repr

/-- Errors a mutation handler can throw.  `conflict` models a
`ConvexError` with conflict payload; `missingUploads` models the plain
`Error` listing blobIds without upload metadata; `notUnique` models the
throw of a `.unique()` query with several matches; `docMissing` models
Convex's throw on patching or deleting a nonexistent document;
`blobNotFound` models `restore`'s plain error; `internalAssert` models
the TS non-null assertion on the metadata map. -/
inductive Err
  | conflict (c : ConflictError)
  | missingUploads (blobIds : List String)
  | notUnique
  | docMissing
  | blobNotFound (blobId : String)
  | internalAssert
deriving DecidableEq, Repr

instance exceptDecEq {ε α : Type} [DecidableEq ε] [DecidableEq α] :
    DecidableEq (Except ε α) := fun x y =>
  match x, y with
  | .ok a, .ok c => decidable_of_iff (a = c) (by simp)
  | .ok _, .error _ => isFalse (fun h => Except.noConfusion h)
  | .error _, .ok _ => isFalse (fun h => Except.noConfusion h)
  | .error a, .error c => decidable_of_iff (a = c) (by simp)

/-- Model of a Convex `.unique()` index query: no match gives `none`,
one match gives it, several matches throw. -/
def findUnique (l : List α) (q : α → Bool) : Except Err (Option α) :=
  match l.filter q with
  | [] => .ok none
  | [x] => .ok (some x)
  | _ :: _ :: _ => .error .notUnique

/-- First file record at a path (the unique one in well-formed states). -/
def fileAt (s : St) (p : String) : Option FileRec :=
  s.files.find? (fun f => f.path == p)

/-- First blob record with a blobId (the unique one in well-formed states). -/
def blobAt (s : St) (b : String) : Option BlobRec :=
  s.blobs.find? (fun bl => bl.blobId == b)

/-- `ctx.db.insert("files", …)`. -/
def insertFile (s : St) (r : FileRec) : St :=
  { s with files := s.files ++ [r] }

/-- `ctx.db.insert("blobs", …)`. -/
def insertBlob (s : St) (r : BlobRec) : St :=
  { s with blobs := s.blobs ++ [r] }

/-- `ctx.db.patch(file._id, …)` for the file previously found by a unique
path query; throws if no record at the path remains (patch of a deleted
document). -/
def patchFileAt (s : St) (p : String) (upd : FileRec → FileRec) : Except Err St :=
  if s.files.any (fun f => f.path == p) then
    .ok { s with files := s.files.map (fun f => if f.path == p then upd f else f) }
  else .error .docMissing

/-- `ctx.db.delete(file._id)` for the file previously found by a unique
path query. -/
def deleteFileAt (s : St) (p : String) : Except Err St :=
  if s.files.any (fun f => f.path == p) then
    .ok { s with files := s.files.filter (fun f => !(f.path == p)) }
  else .error .docMissing

/-- `ctx.db.patch(blob._id, …)` for the blob previously found by a unique
blobId query. -/
def patchBlobs (s : St) (b : String) (upd : BlobRec → BlobRec) : St :=
  { s with blobs := s.blobs.map (fun bl => if bl.blobId == b then upd bl else bl) }

/-- `ctx.db.delete(upload._id)` for the upload previously found by a
unique blobId query. -/
def deleteUploadsByBlobId (s : St) (b : String) : St :=
  { s with uploads := s.uploads.filter (fun u => !(u.blobId == b)) }

/-- Convex mutation semantics: if the handler throws, every write it
performed is rolled back, so the observable state is the pre-call state. -/
def runMutation (f : St → Except Err St) (s : St) : St :=
  match f s with
  | .ok s' => s'
  | .error _ => s

/-! ## Journal operations (`dist/component/ops/transact.js`) -/

/-- `fileMetadataValidator`: an operation's `source` predicate carries the
caller's last-known metadata; only `path` and `blobId` are validated. -/
structure FileMetadata where
  path : String
  blobId : String
  contentType : String
  size : Int
  attributes : Option FileAttributes
deriving DecidableEq, Repr

/-- `destValidator`: `basis` is three-state — `none` models JS
`undefined` (no check), `some none` models `null` (dest must not exist),
`some (some b)` models a blobId string (dest must match `b`). -/
structure Dest where
  path : String
  basis : Option (Option String)
deriving DecidableEq, Repr

/-- `setAttributesInputValidator`: `none` = keep, `some none` = clear,
`some (some t)` = set. -/
structure SetAttributesInput where
  expiresAt : Option (Option Int)
deriving DecidableEq, Repr

/-- `opValidator`: the journal operations. -/
inductive Op
  | move (source : FileMetadata) (dest : Dest)
  | copy (source : FileMetadata) (dest : Dest)
  | delete (source : FileMetadata)
  | setAttributes (source : FileMetadata) (attributes : SetAttributesInput)
deriving DecidableEq, Repr

/-- The `source` predicate an operation carries. -/
def Op.source : Op → FileMetadata
  | .move s _ => s
  | .copy s _ => s
  | .delete s => s
  | .setAttributes s _ => s

/-- The `dest` of a move/copy operation. -/
def Op.dest? : Op → Option Dest
  | .move _ d => some d
  | .copy _ d => some d
  | .delete _ => none
  | .setAttributes _ _ => none

/-- Source-predicate validation: the file must exist at `source.path` and
its `blobId` must match (transact.js lines 139–165). -/
def validateSource (s : St) (source : FileMetadata) (opIndex : Nat) :
    Except Err FileRec := do
  let opNum := opIndex + 1
  let sourceFile? ← findUnique s.files (fun f => f.path == source.path)
  match sourceFile? with
  | none =>
      .error (.conflict ⟨.SOURCE_NOT_FOUND, source.path, some source.blobId,
        none, some opNum⟩)
  | some sourceFile =>
      if sourceFile.blobId ≠ source.blobId then
        .error (.conflict ⟨.SOURCE_CHANGED, source.path, some source.blobId,
          some sourceFile.blobId, some opNum⟩)
      else .ok sourceFile

/-- Dest-predicate validation for move/copy (transact.js lines 166–214). -/
def validateDest (s : St) (dest : Dest) (opIndex : Nat) : Except Err Unit := do
  let opNum := opIndex + 1
  let destFile? ← findUnique s.files (fun f => f.path == dest.path)
  match dest.basis with
  | none => .ok ()
  | some none =>
      match destFile? with
      | some destFile =>
          .error (.conflict ⟨.DEST_EXISTS, dest.path, none,
            some destFile.blobId, some opNum⟩)
      | none => .ok ()
  | some (some basis) =>
      match destFile? with
      | none =>
          .error (.conflict ⟨.DEST_NOT_FOUND, dest.path, some basis,
            none, some opNum⟩)
      | some destFile =>
          if destFile.blobId ≠ basis then
            .error (.conflict ⟨.DEST_CHANGED, dest.path, some basis,
              some destFile.blobId, some opNum⟩)
          else .ok ()

/-- The decrement pattern shared by every removal site: look the blob up
by blobId with `.unique()`, and patch `refCount - 1` only if it exists
(helpers.ts lines 29–41). -/
def decrefBlob (s : St) (b : String) (now : Int) : Except Err St := do
  let blob? ← findUnique s.blobs (fun bl => bl.blobId == b)
  match blob? with
  | some _ =>
      .ok (patchBlobs s b (fun bl =>
        { bl with refCount := bl.refCount - 1, updatedAt := now }))
  | none => .ok s

/-- `deleteFileAndDecrefBlob` (helpers.ts lines 20–41): delete the file
record, then decrement the blob's refCount if the blob record exists. -/
def deleteFileAndDecrefBlob (s : St) (filePath : String) (b : String)
    (now : Int) : Except Err St := do
  let s1 ← deleteFileAt s filePath
  decrefBlob s1 b now

/-- Apply section of a `move` (transact.js lines 219–248): delete any
file at dest (decrementing its blob), then repoint the source record to
the dest path, clearing its attributes. -/
def applyMove (s : St) (sourceFile : FileRec) (dest : Dest) (now : Int) :
    Except Err St := do
  let destFile? ← findUnique s.files (fun f => f.path == dest.path)
  let s1 ← match destFile? with
    | some destFile => do
        let s' ← deleteFileAt s destFile.path
        decrefBlob s' destFile.blobId now
    | none => .ok s
  patchFileAt s1 sourceFile.path
    (fun f => { f with path := dest.path, attributes := none })

/-- Apply section of a `copy` (transact.js lines 249–294): increment the
source blob (if its record exists), then overwrite or create the dest
file. -/
def applyCopy (s : St) (sourceFile : FileRec) (dest : Dest) (now : Int) :
    Except Err St := do
  let sourceBlob? ← findUnique s.blobs (fun bl => bl.blobId == sourceFile.blobId)
  let s1 := match sourceBlob? with
    | some _ =>
        patchBlobs s sourceFile.blobId (fun bl =>
          { bl with refCount := bl.refCount + 1, updatedAt := now })
    | none => s
  let destFile? ← findUnique s1.files (fun f => f.path == dest.path)
  match destFile? with
  | some destFile => do
      let s2 ← patchFileAt s1 destFile.path
        (fun f => { f with blobId := sourceFile.blobId, attributes := none })
      decrefBlob s2 destFile.blobId now
  | none => .ok (insertFile s1 ⟨dest.path, sourceFile.blobId, none⟩)

/-- Apply section of `setAttributes` (transact.js lines 295–318):
three-way merge of `expiresAt`; the attributes object is dropped
entirely when no field remains. -/
def applySetAttributes (s : St) (sourceFile : FileRec)
    (attributes : SetAttributesInput) : Except Err St :=
  let currentExpiresAt := (sourceFile.attributes.map (·.expiresAt)).join
  let newExpiresAt : Option Int :=
    match attributes.expiresAt with
    | some none => none
    | some (some t) => some t
    | none => currentExpiresAt
  let finalAttrs : Option FileAttributes :=
    match newExpiresAt with
    | some t => some ⟨some t⟩
    | none => none
  patchFileAt s sourceFile.path (fun f => { f with attributes := finalAttrs })

/-- The validation section of `applyOperation` alone (source predicate,
then dest predicate for move/copy). -/
def opValidation (s : St) (op : Op) (opIndex : Nat) : Except Err Unit := do
  let _sourceFile ← validateSource s op.source opIndex
  match op with
  | .move _ dest => validateDest s dest opIndex
  | .copy _ dest => validateDest s dest opIndex
  | .delete _ => .ok ()
  | .setAttributes _ _ => .ok ()

/-- `applyOperation` (transact.js lines 137–319): validate the source
predicate, validate the dest predicate for move/copy, then apply. -/
def applyOperation (s : St) (op : Op) (opIndex : Nat) (now : Int) :
    Except Err St := do
  let sourceFile ← validateSource s op.source opIndex
  match op with
  | .move _ dest => do
      validateDest s dest opIndex
      applyMove s sourceFile dest now
  | .copy _ dest => do
      validateDest s dest opIndex
      applyCopy s sourceFile dest now
  | .delete _ =>
      deleteFileAndDecrefBlob s sourceFile.path sourceFile.blobId now
  | .setAttributes _ attributes =>
      applySetAttributes s sourceFile attributes

/-- The journal loop of `transact` with its running 0-based index. -/
def goTransact (ops : List Op) (i : Nat) (s : St) (now : Int) :
    Except Err St :=
  match ops with
  | [] => .ok s
  | op :: rest => do
      let s' ← applyOperation s op i now
      goTransact rest (i + 1) s' now

/-- `transact` (transact.js lines 320–337): apply the operations
sequentially as a journal. -/
def transact (ops : List Op) (s : St) (now : Int) : Except Err St :=
  goTransact ops 0 s now

/-! ## Commit pipeline (`commitFiles`, transact.js lines 13–124) -/

/-- `fileCommitValidator`: one entry of a commit batch.  `basis` has the
same three-state encoding as `Dest.basis`. -/
structure FileCommit where
  path : String
  blobId : String
  basis : Option (Option String)
  attributes : Option FileAttributes
deriving DecidableEq, Repr

/-- Upload metadata captured during proxy upload. -/
structure BlobMetadata where
  contentType : String
  size : Int
deriving DecidableEq, Repr

/-- `Map.set`: replace the value of an existing key or append. -/
def mapSet (m : List (String × BlobMetadata)) (k : String) (v : BlobMetadata) :
    List (String × BlobMetadata) :=
  if m.any (fun e => e.1 == k) then
    m.map (fun e => if e.1 == k then (k, v) else e)
  else m ++ [(k, v)]

/-- `Map.get`. -/
def mapGet (m : List (String × BlobMetadata)) (k : String) : Option BlobMetadata :=
  (m.find? (fun e => e.1 == k)).map (·.2)

/-- First phase of `commitFiles` (lines 24–39): collect contentType/size
from the uploads table for every entry whose upload record carries both. -/
def buildMetadataMap (s : St) (files : List FileCommit) :
    Except Err (List (String × BlobMetadata)) :=
  files.foldlM (fun m f => do
    let upload? ← findUnique s.uploads (fun u => u.blobId == f.blobId)
    match upload? with
    | some u =>
        match u.contentType, u.size with
        | some ct, some sz => pure (mapSet m f.blobId ⟨ct, sz⟩)
        | _, _ => pure m
    | none => pure m) []

/-- Second phase (lines 40–46): fail the whole commit, naming every
blobId that lacks upload metadata. -/
def checkMissing (files : List FileCommit)
    (m : List (String × BlobMetadata)) : Except Err Unit :=
  let missing := files.filter (fun f => (mapGet m f.blobId).isNone)
  if missing.isEmpty then .ok ()
  else .error (.missingUploads (missing.map (·.blobId)))

/-- Third phase (lines 47–66): re-validate every defined `basis` against
the current file at the path, throwing `CAS_CONFLICT` on the first
violation. -/
def checkCAS (s : St) : List FileCommit → Except Err Unit
  | [] => .ok ()
  | f :: rest =>
      match f.basis with
      | none => checkCAS s rest
      | some b => do
          let currentFile? ← findUnique s.files (fun fr => fr.path == f.path)
          let currentBlobId := currentFile?.map (·.blobId)
          if currentBlobId ≠ b then
            .error (.conflict ⟨.CAS_CONFLICT, f.path, b, currentBlobId, none⟩)
          else checkCAS s rest

/-- Apply phase for one commit entry (lines 69–121): insert the new blob
with `refCount = 1`, repoint or insert the file record (decrementing a
repointed file's old blob), and delete the consumed upload record.  The
`none` case of the metadata lookup models the TS non-null assertion; it
is unreachable after `checkMissing`. -/
def commitOne (s : St) (m : List (String × BlobMetadata)) (f : FileCommit)
    (now : Int) : Except Err St := do
  let md ← match mapGet m f.blobId with
    | some md => pure md
    | none => .error .internalAssert
  let s1 := insertBlob s ⟨f.blobId, md.contentType, md.size, 1, now⟩
  let existingFile? ← findUnique s1.files (fun fr => fr.path == f.path)
  let s2 ← match existingFile? with
    | some ef => do
        let s' ← patchFileAt s1 ef.path
          (fun fr => { fr with blobId := f.blobId, attributes := f.attributes })
        decrefBlob s' ef.blobId now
    | none => .ok (insertFile s1 ⟨f.path, f.blobId, f.attributes⟩)
  let upload? ← findUnique s2.uploads (fun u => u.blobId == f.blobId)
  match upload? with
  | some u => .ok (deleteUploadsByBlobId s2 u.blobId)
  | none => .ok s2

/-- `commitFiles` (transact.js lines 13–124). -/
def commitFiles (files : List FileCommit) (s : St) (now : Int) :
    Except Err St :=
  if files.isEmpty then .ok s
  else do
    let m ← buildMetadataMap s files
    checkMissing files m
    checkCAS s files
    files.foldlM (fun st f => commitOne st m f now) s

/-- Whether the (unique) pending-upload record for a blobId exists and
carries both `contentType` and `size` — the condition under which
`commitFiles`' metadata map receives an entry for it. -/
def uploadHasMetadata (s : St) (b : String) : Bool :=
  match s.uploads.find? (fun u => u.blobId == b) with
  | some u => u.contentType.isSome && u.size.isSome
  | none => false

/-- Whether a commit entry's optimistic-concurrency condition is violated
against the current state: `basis` is defined and differs from the blobId
of the current file at `path` (or from null when no file is there). -/
def casViolation (s : St) (f : FileCommit) : Bool :=
  match f.basis with
  | none => false
  | some b => !(((fileAt s f.path).map (·.blobId)) == b)

/-! ## Admin restore (`basics.ts` lines 424–464) -/

/-- `restore`: re-link an existing blob to a path, incrementing its
refCount and inserting a new file record (no path check). -/
def restore (s : St) (b : String) (path : String) (now : Int) :
    Except Err St := do
  let blob? ← findUnique s.blobs (fun bl => bl.blobId == b)
  match blob? with
  | none => .error (.blobNotFound b)
  | some _ =>
      let s1 := patchBlobs s b (fun bl =>
        { bl with refCount := bl.refCount + 1, updatedAt := now })
      .ok (insertFile s1 ⟨path, b, none⟩)

/-! ## Stored configuration (`config.ts` lines 127–159) -/

/-- Client-supplied configuration (`configValidator`): the storage
backend payload is copied wholesale and is opaque here. -/
structure ClientConfig where
  storage : String
  uploadUrlTtl : Option Int
  downloadUrlTtl : Option Int
  blobGracePeriod : Option Int
deriving DecidableEq, Repr

/-- The value of the stored configuration record (config table, key
`"storage"`): client fields plus the dashboard-only flags. -/
structure StoredValue where
  storage : String
  uploadUrlTtl : Option Int
  downloadUrlTtl : Option Int
  blobGracePeriod : Option Int
  freezeGc : Option Bool
  allowClearAllFiles : Option Bool
deriving DecidableEq, Repr

/-- `ensureConfigStored`: build `newValue` from the client config, taking
`freezeGc` from the existing record (`existing?.value.freezeGc`), and
insert or patch the whole `value` with it.  The `newValue` object literal
carries no `allowClearAllFiles` key, so that field of the stored value is
absent (`none`) after every write. -/
def ensureConfigStored (cfg : ClientConfig) (existing : Option StoredValue) :
    StoredValue :=
  { storage := cfg.storage
    uploadUrlTtl := cfg.uploadUrlTtl
    downloadUrlTtl := cfg.downloadUrlTtl
    blobGracePeriod := cfg.blobGracePeriod
    freezeGc := existing.bind (·.freezeGc)
    allowClearAllFiles := none }

/-! ## Background GC (`part_008`: `background.ts`) -/

/-- Outcome of a blob-store `delete`: the tri-state contract — `deleted`,
`notFound` (confirmed absent), or a thrown transport error. -/
inductive DeleteOutcome
  | deleted
  | notFound
  | errorThrown
deriving DecidableEq, Repr

/-- Whether a backend delete threw. -/
def DeleteOutcome.isError : DeleteOutcome → Bool
  | .errorThrown => true
  | _ => false

/-- Result of one GC run: the state after the metadata cleanup and
whether an immediate follow-up run was scheduled. -/
structure GcRun where
  state : St
  rescheduled : Bool
deriving DecidableEq, Repr

/-- Grace period after upload-URL expiry before upload cleanup (1 h, ms). -/
def UPLOAD_GRACE_PERIOD_MS : Int := 60 * 60 * 1000

/-- Default grace period before orphaned blobs are deleted (24 h, s). -/
def DEFAULT_BLOB_GRACE_PERIOD_S : Int := 24 * 60 * 60

/-- Max items per GC run. -/
def GC_BATCH_SIZE : Nat := 100

/-- Insert into a list sorted ascending by `key` (stable). -/
def insertSorted (key : α → Int) (x : α) : List α → List α
  | [] => [x]
  | y :: ys => if key x < key y then x :: y :: ys else y :: insertSorted key x ys

/-- Sort ascending by `key`: the order in which an ascending Convex index
range scan returns records. -/
def sortByKey (key : α → Int) : List α → List α
  | [] => []
  | x :: xs => insertSorted key x (sortByKey key xs)

/-- `findExpiredUploads`: index scan `expiresAt < threshold`, up to
`limit` records in ascending `expiresAt` order. -/
def findExpiredUploads (s : St) (threshold : Int) (limit : Nat) :
    List UploadRec :=
  ((sortByKey (·.expiresAt) s.uploads).filter
    (fun u => u.expiresAt < threshold)).take limit

/-- `findOrphanedBlobs`: index scan `refCount == 0 ∧ updatedAt <
threshold`, up to `limit` records in ascending `updatedAt` order. -/
def findOrphanedBlobs (s : St) (threshold : Int) (limit : Nat) :
    List BlobRec :=
  ((sortByKey (·.updatedAt) s.blobs).filter
    (fun b => b.refCount == 0 && b.updatedAt < threshold)).take limit

/-- The categorize step shared by the GC loops (part_008 lines 128–155
and 280–306): the batch entries whose backend delete returned `deleted`
or `not_found` — only their metadata records may be removed. -/
def gcOkRecords {α : Type} (batch : List α) (key : α → String)
    (backend : String → DeleteOutcome) : List α :=
  ((batch.map (fun u => (backend (key u), u))).filter
    (fun r => !(r.1.isError))).map (·.2)

/-- The number of batch entries whose backend delete threw. -/
def gcErrorCount {α : Type} (batch : List α) (key : α → String)
    (backend : String → DeleteOutcome) : Nat :=
  ((batch.map (fun u => (backend (key u), u))).filter
    (fun r => r.1.isError)).length

/-- `gcExpiredUploads` (part_008 lines 89–180): skip without config or
when GC is frozen; find the expired batch; delete bytes via the backend
(modelled by the `backend` outcome function); delete upload records only
for entries that were deleted or confirmed absent; reschedule only if
the batch was full and no backend error occurred. -/
def gcExpiredUploads (stored : Option StoredValue) (s : St) (now : Int)
    (backend : String → DeleteOutcome) : GcRun :=
  match stored with
  | none => ⟨s, false⟩
  | some config =>
    if config.freezeGc.getD false then ⟨s, false⟩
    else
      let expired := findExpiredUploads s (now - UPLOAD_GRACE_PERIOD_MS)
        GC_BATCH_SIZE
      if expired.isEmpty then ⟨s, false⟩
      else
        let okToDelete := gcOkRecords expired (·.blobId) backend
        let keep : UploadRec → Bool :=
          fun u => !((okToDelete.map (·.blobId)).contains u.blobId)
        let s' :=
          if okToDelete.isEmpty then s
          else { s with uploads := s.uploads.filter keep }
        ⟨s', expired.length == GC_BATCH_SIZE &&
          gcErrorCount expired (·.blobId) backend == 0⟩

/-- `gcOrphanedBlobs` (part_008 lines 238–331): same policy over blob
records with `refCount == 0` older than the configured grace period
(seconds, default 24 h). -/
def gcOrphanedBlobs (stored : Option StoredValue) (s : St) (now : Int)
    (backend : String → DeleteOutcome) : GcRun :=
  match stored with
  | none => ⟨s, false⟩
  | some config =>
    if config.freezeGc.getD false then ⟨s, false⟩
    else
      let orphaned := findOrphanedBlobs s
        (now - config.blobGracePeriod.getD DEFAULT_BLOB_GRACE_PERIOD_S * 1000)
        GC_BATCH_SIZE
      if orphaned.isEmpty then ⟨s, false⟩
      else
        let okToDelete := gcOkRecords orphaned (·.blobId) backend
        let keep : BlobRec → Bool :=
          fun b => !((okToDelete.map (·.blobId)).contains b.blobId)
        let s' :=
          if okToDelete.isEmpty then s
          else { s with blobs := s.blobs.filter keep }
        ⟨s', orphaned.length == GC_BATCH_SIZE &&
          gcErrorCount orphaned (·.blobId) backend == 0⟩

/-- Transcription of the claimed conflict-detection conditions (claim C3,
spec §4.2), written from the spec's words for comparison with
`applyOperation`: the conflict (with its full payload) that validation of
an operation at 1-indexed position `i + 1` should raise against a state,
or `none` when validation should pass. -/
def claimedConflict (s : St) (op : Op) (i : Nat) : Option ConflictError :=
  let n := i + 1
  match fileAt s op.source.path with
  | none =>
      some ⟨.SOURCE_NOT_FOUND, op.source.path, some op.source.blobId,
        none, some n⟩
  | some sf =>
    if sf.blobId ≠ op.source.blobId then
      some ⟨.SOURCE_CHANGED, op.source.path, some op.source.blobId,
        some sf.blobId, some n⟩
    else
      match op.dest? with
      | none => none
      | some dest =>
        match dest.basis, fileAt s dest.path with
        | none, _ => none
        | some none, some df =>
            some ⟨.DEST_EXISTS, dest.path, none, some df.blobId, some n⟩
        | some none, none => none
        | some (some b), none =>
            some ⟨.DEST_NOT_FOUND, dest.path, some b, none, some n⟩
        | some (some b), some df =>
            if df.blobId ≠ b then
              some ⟨.DEST_CHANGED, dest.path, some b, some df.blobId, some n⟩
            else none

/-! ## Invariants -/

/-- Number of file records referencing a blobId. -/
def countRefs (files : List FileRec) (b : String) : Nat :=
  files.countP (fun f => f.blobId == b)

/-- At most one file record per distinct path. -/
def pathsUnique (s : St) : Prop :=
  s.files.Pairwise (fun a c => a.path ≠ c.path)

/-- At most one blob record per distinct blobId. -/
def blobsUnique (s : St) : Prop :=
  s.blobs.Pairwise (fun a c => a.blobId ≠ c.blobId)

/-- At most one upload record per distinct blobId. -/
def uploadsUnique (s : St) : Prop :=
  s.uploads.Pairwise (fun a c => a.blobId ≠ c.blobId)

/-- Refcount conservation: each blob record's `refCount` equals the
number of file records whose `blobId` equals that blob's `blobId`. -/
def refcountOk (s : St) : Prop :=
  ∀ bl ∈ s.blobs, bl.refCount = (countRefs s.files bl.blobId : Int)

/-- Pending-upload blobIds are fresh: they collide neither with a
committed blob record nor with any file record's reference. -/
def uploadsFresh (s : St) : Prop :=
  ∀ u ∈ s.uploads,
    (∀ bl ∈ s.blobs, bl.blobId ≠ u.blobId) ∧
    (∀ f ∈ s.files, f.blobId ≠ u.blobId)

/-- The well-formedness invariant of the metadata state. -/
def Inv (s : St) : Prop :=
  pathsUnique s ∧ blobsUnique s ∧ refcountOk s ∧ uploadsFresh s

instance (s : St) : Decidable (pathsUnique s) := by
  unfold pathsUnique; infer_instance

instance (s : St) : Decidable (blobsUnique s) := by
  unfold blobsUnique; infer_instance

instance (s : St) : Decidable (uploadsUnique s) := by
  unfold uploadsUnique; infer_instance

instance (s : St) : Decidable (refcountOk s) := by
  unfold refcountOk; infer_instance

instance (s : St) : Decidable (uploadsFresh s) := by
  unfold uploadsFresh; infer_instance

instance (s : St) : Decidable (Inv s) := by
  unfold Inv; infer_instance

/-! ## Call sequences: the public write entry points in succession -/

/-- One state-changing call of the public interface: a `commitFiles`
batch or a `transact` journal. -/
inductive Step
  | commit (files : List FileCommit) (now : Int)
  | txn (ops : List Op) (now : Int)

/-- The mutation handler a step runs. -/
def Step.run : Step → St → Except Err St
  | .commit fc now, s => commitFiles fc s now
  | .txn ops now, s => transact ops s now

/-- A sequence of calls under Convex mutation semantics: a call that
throws is rolled back and the next call starts from the previous state. -/
def runSteps (steps : List Step) (s : St) : St :=
  match steps with
  | [] => s
  | st :: rest => runSteps rest (runMutation st.run s)

/-- Batch sanity of one call: a commit batch never lists the same blobId
twice (each pending upload is consumed by at most one entry). -/
def stepWF : Step → Prop
  | .commit fc _ => fc.Pairwise (fun a c => a.blobId ≠ c.blobId)
  | .txn _ _ => True

instance (st : Step) : Decidable (stepWF st) := by
  cases st with
  | commit fc now =>
      exact inferInstanceAs
        (Decidable (fc.Pairwise (fun a c => a.blobId ≠ c.blobId)))
  | txn ops now => exact inferInstanceAs (Decidable True)

/-! ## Generic lemmas -/

@[simp] theorem bind_ok (a : α) (f : α → Except Err β) :
    (Except.ok a >>= f) = f a := rfl

@[simp] theorem bind_error (e : Err) (f : α → Except Err β) :
    (Except.error e >>= f : Except Err β) = Except.error e := rfl

@[simp] theorem pure_eq_ok (a : α) : (pure a : Except Err α) = .ok a := rfl

theorem findUnique_ok_none {l : List α} {q : α → Bool}
    (h : findUnique l q = .ok none) : l.filter q = [] := by
  unfold findUnique at h
  rcases hf : l.filter q with _ | ⟨x, _ | ⟨y, t⟩⟩ <;> simp [hf] at h <;> rfl

theorem findUnique_ok_some {l : List α} {q : α → Bool} {r : α}
    (h : findUnique l q = .ok (some r)) : l.filter q = [r] := by
  unfold findUnique at h
  rcases hf : l.filter q with _ | ⟨x, _ | ⟨y, t⟩⟩ <;> simp [hf] at h
  simp [h]

theorem filter_nil_not {l : List α} {q : α → Bool}
    (h : l.filter q = []) : l.filter (fun a => !(q a)) = l := by
  apply List.filter_eq_self.mpr
  intro a ha
  have := List.filter_eq_nil_iff.mp h a ha
  simp [this]

theorem filter_singleton_perm {q : α → Bool} :
    ∀ {l : List α} {r : α}, l.filter q = [r] →
      List.Perm l (r :: l.filter (fun a => !(q a))) := by
  intro l
  induction l with
  | nil => intro r h; simp at h
  | cons x t ih =>
    intro r h
    by_cases hx : q x
    · simp only [List.filter_cons, hx, if_true] at h
      rcases List.cons.injEq .. ▸ h with ⟨rfl, ht⟩
      have h1 : (x :: t).filter (fun a => !(q a)) = t := by
        simp [List.filter_cons, hx, filter_nil_not ht]
      rw [h1]
    · simp only [List.filter_cons, hx, if_false] at h
      have h1 : (x :: t).filter (fun a => !(q a)) =
          x :: t.filter (fun a => !(q a)) := by
        simp [List.filter_cons, hx]
      rw [h1]
      exact (List.Perm.cons x (ih h)).trans (List.Perm.swap r x _)

theorem mem_of_filter_singleton {l : List α} {q : α → Bool} {r : α}
    (h : l.filter q = [r]) : r ∈ l ∧ q r = true := by
  have hr : r ∈ l.filter q := by rw [h]; exact List.mem_singleton_self r
  exact List.mem_filter.mp hr

theorem countP_split (p q : α → Bool) (l : List α) :
    l.countP p =
      l.countP (fun a => p a && q a) + l.countP (fun a => p a && !(q a)) := by
  induction l with
  | nil => simp
  | cons x t ih =>
    simp only [List.countP_cons, ih]
    by_cases hp : p x <;> by_cases hq : q x <;> simp [hp, hq] <;> omega

theorem pairwise_key_atMostOne {key : α → String} :
    ∀ {l : List α}, l.Pairwise (fun a c => key a ≠ key c) →
      ∀ v, (l.filter (fun a => key a == v)).length ≤ 1 := by
  intro l
  induction l with
  | nil => simp
  | cons x t ih =>
    intro hl v
    rcases List.pairwise_cons.mp hl with ⟨hx, ht⟩
    by_cases h : key x == v
    · have hxv : key x = v := by simpa using h
      have hempty : t.filter (fun a => key a == v) = [] := by
        apply List.filter_eq_nil_iff.mpr
        intro a ha
        have hne := hx a ha
        simp only [beq_iff_eq]
        exact fun hc => hne (by rw [hxv, hc])
      simp [List.filter_cons, h, hempty]
    · simp only [List.filter_cons, h, if_false, Bool.false_eq_true]
      exact ih ht v

theorem find?_eq_head?_filter (q : α → Bool) :
    ∀ l : List α, l.find? q = (l.filter q).head? := by
  intro l
  induction l with
  | nil => rfl
  | cons x t ih =>
    by_cases h : q x
    · have h1 : List.find? q (x :: t) = some x := by simp [List.find?_cons, h]
      have h2 : List.filter q (x :: t) = x :: List.filter q t := by
        simp [List.filter_cons, h]
      rw [h1, h2]
      rfl
    · have h1 : List.find? q (x :: t) = List.find? q t := by
        simp [List.find?_cons, h]
      have h2 : List.filter q (x :: t) = List.filter q t := by
        simp [List.filter_cons, h]
      rw [h1, h2, ih]

theorem findUnique_of_atMostOne {l : List α} {q : α → Bool}
    (h : (l.filter q).length ≤ 1) : findUnique l q = .ok (l.find? q) := by
  rw [find?_eq_head?_filter]
  unfold findUnique
  rcases hf : l.filter q with _ | ⟨x, _ | ⟨y, t⟩⟩ <;> simp [hf] at h ⊢

/-- Under path uniqueness, the `.unique()` query by path returns the
`find?` result. -/
theorem findUnique_files (s : St) (p : String) (h : pathsUnique s) :
    findUnique s.files (fun f => f.path == p) = .ok (fileAt s p) :=
  findUnique_of_atMostOne (pairwise_key_atMostOne h p)

/-- Under blobId uniqueness, the `.unique()` query by blobId returns the
`find?` result. -/
theorem findUnique_blobs (s : St) (b : String) (h : blobsUnique s) :
    findUnique s.blobs (fun bl => bl.blobId == b) = .ok (blobAt s b) :=
  findUnique_of_atMostOne (pairwise_key_atMostOne h b)

theorem findUnique_error {l : List α} {q : α → Bool} {e : Err}
    (h : findUnique l q = .error e) : e = .notUnique := by
  unfold findUnique at h
  rcases hf : l.filter q with _ | ⟨x, _ | ⟨y, t⟩⟩ <;> simp [hf] at h
  exact h.symm

/-! ## Transact structure lemmas -/

theorem goTransact_append (xs ys : List Op) (i : Nat) (s : St) (now : Int) :
    goTransact (xs ++ ys) i s now =
      (goTransact xs i s now) >>=
        (fun s' => goTransact ys (i + xs.length) s' now) := by
  induction xs generalizing i s with
  | nil => simp [goTransact]
  | cons op rest ih =>
    simp only [List.cons_append, goTransact]
    cases h : applyOperation s op i now with
    | ok s' =>
        have harith : i + 1 + rest.length = i + (rest.length + 1) := by omega
        simp [h, ih, harith]
    | error e => simp [h]

theorem eq_take_cons_drop {ops : List Op} {n : Nat} {op : Op}
    (h : ops[n]? = some op) :
    ops = ops.take n ++ op :: ops.drop (n + 1) := by
  have hlt : n < ops.length := by
    by_contra hge
    rw [List.getElem?_eq_none (by omega)] at h
    exact Option.noConfusion h
  have hget : ops[n] = op := by
    have := List.getElem?_eq_getElem hlt
    rw [this] at h
    exact Option.some.injEq .. ▸ h
  conv_lhs => rw [← List.take_append_drop n ops]
  congr 1
  rw [List.drop_eq_getElem_cons hlt, hget]

theorem applyOperation_error_of_validation {s : St} {op : Op} {i : Nat}
    {e : Err} (now : Int) (h : opValidation s op i = .error e) :
    applyOperation s op i now = .error e := by
  unfold opValidation at h
  unfold applyOperation
  cases hv : validateSource s op.source i with
  | error e' =>
      rw [hv] at h
      simp at h ⊢
      exact h
  | ok sf =>
      rw [hv] at h
      simp at h ⊢
      cases op with
      | move src dest =>
          simp only at h ⊢
          rw [h]
          rfl
      | copy src dest =>
          simp only at h ⊢
          rw [h]
          rfl
      | delete src => exact absurd h (by simp)
      | setAttributes src a => exact absurd h (by simp)

/-- C2: Transact atomicity — if the n-th operation's predicate validation
fails against the state produced by the preceding operations, the whole
`transact` call throws that error, and by Convex mutation rollback
semantics (`runMutation`) the metadata state after the call is the state
before the call: no operation of the journal has any observable effect. -/
theorem transact_atomic (ops : List Op) (s : St) (now : Int) (n : Nat)
    (op : Op) (s' : St) (e : Err)
    (hop : ops[n]? = some op)
    (hpre : goTransact (ops.take n) 0 s now = .ok s')
    (hval : opValidation s' op n = .error e) :
    transact ops s now = .error e ∧
      runMutation (fun st => transact ops st now) s = s := by
  have hlt : n < ops.length := by
    by_contra hge
    rw [List.getElem?_eq_none (by omega)] at hop
    exact Option.noConfusion hop
  have happ : applyOperation s' op n now = .error e :=
    applyOperation_error_of_validation now hval
  have hlen : (ops.take n).length = n := by
    rw [List.length_take]
    omega
  have hmain : transact ops s now = .error e := by
    rw [transact]
    conv_lhs => rw [eq_take_cons_drop hop]
    rw [goTransact_append, hpre]
    simp only [bind_ok, goTransact, hlen, Nat.zero_add, happ, bind_error]
  refine ⟨hmain, ?_⟩
  unfold runMutation
  simp only
  rw [hmain]

/-- C9 counterexample: `ensureConfigStored` does not retain the
previously stored record's `allowClearAllFiles` value — the written
`newValue` carries no such field, so a stored `allowClearAllFiles = true`
is lost on the next configuration write. -/
theorem ensureConfigStored_drops_optIn :
    (ensureConfigStored ⟨"new", some 1, some 2, some 3⟩
        (some ⟨"old", none, none, none, some true, some true⟩)).allowClearAllFiles
      ≠ (⟨"old", none, none, none, some true, some true⟩ :
          StoredValue).allowClearAllFiles := by
  decide

/-- C2 witness: a concrete two-operation journal whose second operation
fails validation; the whole call throws and the state is unchanged. -/
theorem transact_atomic_witness :
    transact [.delete ⟨"/a", "B", "t", 1, none⟩,
        .delete ⟨"/a", "B", "t", 1, none⟩]
        ⟨[⟨"/a", "B", none⟩], [⟨"B", "t", 1, 1, 0⟩], []⟩ 4 =
      .error (.conflict ⟨.SOURCE_NOT_FOUND, "/a", some "B", none, some 2⟩) ∧
    runMutation
        (fun st => transact [.delete ⟨"/a", "B", "t", 1, none⟩,
          .delete ⟨"/a", "B", "t", 1, none⟩] st 4)
        ⟨[⟨"/a", "B", none⟩], [⟨"B", "t", 1, 1, 0⟩], []⟩ =
      ⟨[⟨"/a", "B", none⟩], [⟨"B", "t", 1, 1, 0⟩], []⟩ :=
  transact_atomic
    [.delete ⟨"/a", "B", "t", 1, none⟩, .delete ⟨"/a", "B", "t", 1, none⟩]
    ⟨[⟨"/a", "B", none⟩], [⟨"B", "t", 1, 1, 0⟩], []⟩ 4 1
    (.delete ⟨"/a", "B", "t", 1, none⟩) ⟨[], [⟨"B", "t", 1, 0, 4⟩], []⟩
    (.conflict ⟨.SOURCE_NOT_FOUND, "/a", some "B", none, some 2⟩)
    (by decide) (by decide) (by decide)

/-! ## Error classification of the apply phase -/

theorem patchFileAt_error {s : St} {p : String} {upd : FileRec → FileRec}
    {e : Err} (h : patchFileAt s p upd = .error e) : e = .docMissing := by
  unfold patchFileAt at h
  split at h
  · exact Except.noConfusion h
  · exact (Except.error.injEq .. ▸ h).symm

theorem deleteFileAt_error {s : St} {p : String} {e : Err}
    (h : deleteFileAt s p = .error e) : e = .docMissing := by
  unfold deleteFileAt at h
  split at h
  · exact Except.noConfusion h
  · exact (Except.error.injEq .. ▸ h).symm

theorem decrefBlob_error {s : St} {b : String} {now : Int} {e : Err}
    (h : decrefBlob s b now = .error e) : e = .notUnique := by
  unfold decrefBlob at h
  cases hf : findUnique s.blobs (fun bl => bl.blobId == b) with
  | error e' =>
      rw [hf] at h
      simp at h
      exact h ▸ findUnique_error hf
  | ok o =>
      rw [hf] at h
      cases o <;> simp at h

theorem deleteFileAndDecrefBlob_error {s : St} {p b : String} {now : Int}
    {e : Err} (h : deleteFileAndDecrefBlob s p b now = .error e) :
    e = .notUnique ∨ e = .docMissing := by
  unfold deleteFileAndDecrefBlob at h
  cases hd : deleteFileAt s p with
  | error e' =>
      rw [hd] at h
      simp at h
      exact Or.inr (h ▸ deleteFileAt_error hd)
  | ok s1 =>
      rw [hd] at h
      simp at h
      exact Or.inl (decrefBlob_error h)

theorem applyMove_error {s : St} {sf : FileRec} {d : Dest} {now : Int}
    {e : Err} (h : applyMove s sf d now = .error e) :
    e = .notUnique ∨ e = .docMissing := by
  unfold applyMove at h
  cases hf : findUnique s.files (fun f => f.path == d.path) with
  | error e' =>
      rw [hf] at h
      simp at h
      exact Or.inl (h ▸ findUnique_error hf)
  | ok o =>
      rw [hf] at h
      simp only [bind_ok] at h
      cases o with
      | none =>
          simp at h
          exact Or.inr (patchFileAt_error h)
      | some df =>
          simp only at h
          cases hd : deleteFileAt s df.path with
          | error e' =>
              rw [hd] at h
              simp at h
              exact Or.inr (h ▸ deleteFileAt_error hd)
          | ok s1 =>
              rw [hd] at h
              simp only [bind_ok] at h
              cases hc : decrefBlob s1 df.blobId now with
              | error e' =>
                  rw [hc] at h
                  simp at h
                  exact Or.inl (h ▸ decrefBlob_error hc)
              | ok s2 =>
                  rw [hc] at h
                  simp at h
                  exact Or.inr (patchFileAt_error h)

theorem applyCopy_error {s : St} {sf : FileRec} {d : Dest} {now : Int}
    {e : Err} (h : applyCopy s sf d now = .error e) :
    e = .notUnique ∨ e = .docMissing := by
  unfold applyCopy at h
  cases hb : findUnique s.blobs (fun bl => bl.blobId == sf.blobId) with
  | error e' =>
      rw [hb] at h
      simp at h
      exact Or.inl (h ▸ findUnique_error hb)
  | ok ob =>
      rw [hb] at h
      simp only [bind_ok] at h
      set s1 := match ob with
        | some _ => patchBlobs s sf.blobId (fun bl =>
            { bl with refCount := bl.refCount + 1, updatedAt := now })
        | none => s with hs1
      cases hf : findUnique s1.files (fun f => f.path == d.path) with
      | error e' =>
          rw [hf] at h
          simp at h
          exact Or.inl (h ▸ findUnique_error hf)
      | ok o =>
          rw [hf] at h
          simp only [bind_ok] at h
          cases o with
          | none => simp at h
          | some df =>
              simp only at h
              cases hp : patchFileAt s1 df.path (fun f =>
                  { f with blobId := sf.blobId, attributes := none }) with
              | error e' =>
                  rw [hp] at h
                  simp at h
                  exact Or.inr (h ▸ patchFileAt_error hp)
              | ok s2 =>
                  rw [hp] at h
                  simp at h
                  exact Or.inl (decrefBlob_error h)

theorem applySetAttributes_error {s : St} {sf : FileRec}
    {a : SetAttributesInput} {e : Err}
    (h : applySetAttributes s sf a = .error e) : e = .docMissing := by
  unfold applySetAttributes at h
  exact patchFileAt_error h

/-! ## Validation characterization -/

theorem validateSource_eq (s : St) (src : FileMetadata) (i : Nat)
    (hp : pathsUnique s) :
    validateSource s src i =
      match fileAt s src.path with
      | none =>
          .error (.conflict ⟨.SOURCE_NOT_FOUND, src.path, some src.blobId,
            none, some (i + 1)⟩)
      | some sf =>
          if sf.blobId ≠ src.blobId then
            .error (.conflict ⟨.SOURCE_CHANGED, src.path, some src.blobId,
              some sf.blobId, some (i + 1)⟩)
          else .ok sf := by
  unfold validateSource
  rw [findUnique_files s src.path hp]
  cases fileAt s src.path <;> rfl

theorem validateDest_eq (s : St) (d : Dest) (i : Nat) (hp : pathsUnique s) :
    validateDest s d i =
      match d.basis, fileAt s d.path with
      | none, _ => .ok ()
      | some none, some df =>
          .error (.conflict ⟨.DEST_EXISTS, d.path, none, some df.blobId,
            some (i + 1)⟩)
      | some none, none => .ok ()
      | some (some b), none =>
          .error (.conflict ⟨.DEST_NOT_FOUND, d.path, some b, none,
            some (i + 1)⟩)
      | some (some b), some df =>
          if df.blobId ≠ b then
            .error (.conflict ⟨.DEST_CHANGED, d.path, some b, some df.blobId,
              some (i + 1)⟩)
          else .ok () := by
  unfold validateDest
  rw [findUnique_files s d.path hp]
  rcases d.basis with _ | _ | b <;> cases fileAt s d.path <;> rfl

theorem applyMove_no_conflict {s : St} {sf : FileRec} {d : Dest}
    {now : Int} {c : ConflictError} :
    ¬(applyMove s sf d now = .error (.conflict c)) := by
  intro h
  rcases applyMove_error h with h' | h' <;> exact Err.noConfusion h'

theorem applyCopy_no_conflict {s : St} {sf : FileRec} {d : Dest}
    {now : Int} {c : ConflictError} :
    ¬(applyCopy s sf d now = .error (.conflict c)) := by
  intro h
  rcases applyCopy_error h with h' | h' <;> exact Err.noConfusion h'

theorem deleteFileAndDecrefBlob_no_conflict {s : St} {p b : String}
    {now : Int} {c : ConflictError} :
    ¬(deleteFileAndDecrefBlob s p b now = .error (.conflict c)) := by
  intro h
  rcases deleteFileAndDecrefBlob_error h with h' | h' <;> exact Err.noConfusion h'

theorem applySetAttributes_no_conflict {s : St} {sf : FileRec}
    {a : SetAttributesInput} {c : ConflictError} :
    ¬(applySetAttributes s sf a = .error (.conflict c)) := by
  intro h
  exact Err.noConfusion (applySetAttributes_error h)

/-- C3: Transact conflict detection — against any state with unique
paths (as validation sees it after the preceding operations), an
operation at 0-based index `i` throws a conflict error `c` iff the
claimed conditions produce exactly that conflict: `SOURCE_NOT_FOUND` iff
no file is at `source.path`; `SOURCE_CHANGED` iff the file's blobId
differs; for move/copy, `DEST_EXISTS` iff `basis` is null and a file
occupies `dest.path`, `DEST_NOT_FOUND` iff `basis` is a blobId and no
file is at `dest.path`, `DEST_CHANGED` iff the occupant's blobId differs
from `basis`, and no dest check when `basis` is absent — each error
carrying the code, the 1-indexed operation number `i + 1`, the path, and
the expected and found blobIds (or null), per `claimedConflict`. -/
theorem applyOperation_conflict_iff (s : St) (op : Op) (i : Nat) (now : Int)
    (hp : pathsUnique s) (c : ConflictError) :
    applyOperation s op i now = .error (.conflict c) ↔
      claimedConflict s op i = some c := by
  cases op with
  | delete src =>
      unfold applyOperation claimedConflict
      simp only [Op.source, Op.dest?]
      rw [validateSource_eq s src i hp]
      cases hfa : fileAt s src.path with
      | none => simp
      | some sf =>
          dsimp only
          by_cases hbl : sf.blobId ≠ src.blobId
          · simp only [if_pos hbl]
            simp
          · simp only [if_neg hbl]
            simp only [bind_ok]
            exact iff_of_false deleteFileAndDecrefBlob_no_conflict (by simp)
  | setAttributes src a =>
      unfold applyOperation claimedConflict
      simp only [Op.source, Op.dest?]
      rw [validateSource_eq s src i hp]
      cases hfa : fileAt s src.path with
      | none => simp
      | some sf =>
          dsimp only
          by_cases hbl : sf.blobId ≠ src.blobId
          · simp only [if_pos hbl]
            simp
          · simp only [if_neg hbl]
            simp only [bind_ok]
            exact iff_of_false applySetAttributes_no_conflict (by simp)
  | move src dest =>
      unfold applyOperation claimedConflict
      simp only [Op.source, Op.dest?]
      rw [validateSource_eq s src i hp]
      cases hfa : fileAt s src.path with
      | none => simp
      | some sf =>
          dsimp only
          by_cases hbl : sf.blobId ≠ src.blobId
          · simp only [if_pos hbl]
            simp
          · simp only [if_neg hbl]
            simp only [bind_ok]
            rw [validateDest_eq s dest i hp]
            rcases hbasis : dest.basis with _ | _ | b <;>
              cases hfd : fileAt s dest.path <;>
              simp only [bind_ok, bind_error]
            all_goals
              first
              | exact iff_of_false applyMove_no_conflict (by simp)
              | (simp; done)
              | (rename_i df
                 by_cases hdb : df.blobId = b
                 · simp only [if_neg (not_not_intro hdb), bind_ok]
                   exact iff_of_false applyMove_no_conflict (by simp [hdb])
                 · simp only [if_pos hdb, bind_error]
                   simp [hdb])
  | copy src dest =>
      unfold applyOperation claimedConflict
      simp only [Op.source, Op.dest?]
      rw [validateSource_eq s src i hp]
      cases hfa : fileAt s src.path with
      | none => simp
      | some sf =>
          dsimp only
          by_cases hbl : sf.blobId ≠ src.blobId
          · simp only [if_pos hbl]
            simp
          · simp only [if_neg hbl]
            simp only [bind_ok]
            rw [validateDest_eq s dest i hp]
            rcases hbasis : dest.basis with _ | _ | b <;>
              cases hfd : fileAt s dest.path <;>
              simp only [bind_ok, bind_error]
            all_goals
              first
              | exact iff_of_false applyCopy_no_conflict (by simp)
              | (simp; done)
              | (rename_i df
                 by_cases hdb : df.blobId = b
                 · simp only [if_neg (not_not_intro hdb), bind_ok]
                   exact iff_of_false applyCopy_no_conflict (by simp [hdb])
                 · simp only [if_pos hdb, bind_error]
                   simp [hdb])

/-- C3 witness: against a concrete state with files at `/a` and `/d`, a
move of `/a` to `/d` with `basis = null` throws `DEST_EXISTS` with the
full payload: code, 1-indexed operation number, path, expected null,
found blobId. -/
theorem applyOperation_conflict_iff_witness :
    applyOperation ⟨[⟨"/a", "B", none⟩, ⟨"/d", "C", none⟩], [], []⟩
        (.move ⟨"/a", "B", "t", 1, none⟩ ⟨"/d", some none⟩) 0 3 =
      .error (.conflict ⟨.DEST_EXISTS, "/d", none, some "C", some 1⟩) :=
  (applyOperation_conflict_iff ⟨[⟨"/a", "B", none⟩, ⟨"/d", "C", none⟩], [], []⟩
      (.move ⟨"/a", "B", "t", 1, none⟩ ⟨"/d", some none⟩) 0 3 (by decide)
      ⟨.DEST_EXISTS, "/d", none, some "C", some 1⟩).mpr (by decide)

/-! ## GC lemmas -/

theorem insertSorted_perm (key : α → Int) (x : α) (l : List α) :
    List.Perm (insertSorted key x l) (x :: l) := by
  induction l with
  | nil => exact List.Perm.refl _
  | cons y ys ih =>
      unfold insertSorted
      by_cases h : key x < key y
      · rw [if_pos h]
      · rw [if_neg h]
        exact (List.Perm.cons y ih).trans (List.Perm.swap x y ys)

theorem sortByKey_perm (key : α → Int) (l : List α) :
    List.Perm (sortByKey key l) l := by
  induction l with
  | nil => exact List.Perm.refl _
  | cons x xs ih =>
      unfold sortByKey
      exact (insertSorted_perm key x (sortByKey key xs)).trans
        (List.Perm.cons x ih)

theorem pairwise_key_inj {key : α → String} {l : List α}
    (h : l.Pairwise (fun a c => key a ≠ key c)) :
    ∀ a ∈ l, ∀ c ∈ l, key a = key c → a = c := by
  induction l with
  | nil => simp
  | cons x t ih =>
      rcases List.pairwise_cons.mp h with ⟨hx, ht⟩
      intro a ha c hc hk
      rcases List.mem_cons.mp ha with rfl | ha' <;>
        rcases List.mem_cons.mp hc with rfl | hc'
      · rfl
      · exact absurd hk (hx c hc')
      · exact absurd hk.symm (hx a ha')
      · exact ih ht a ha' c hc' hk

theorem mem_gcOkRecords {α : Type} (batch : List α) (key : α → String)
    (backend : String → DeleteOutcome) (w : α) :
    (w ∈ gcOkRecords batch key backend) ↔
      (w ∈ batch ∧ (backend (key w)).isError = false) := by
  unfold gcOkRecords
  constructor
  · intro h
    rcases List.mem_map.mp h with ⟨r, hr, hw⟩
    have hf := List.mem_filter.mp hr
    rcases List.mem_map.mp hf.1 with ⟨v, hv, heq⟩
    have hrv : r = (backend (key v), v) := heq.symm
    subst hrv
    simp only at hw
    subst hw
    refine ⟨hv, ?_⟩
    simpa using hf.2
  · rintro ⟨hmem, herr⟩
    apply List.mem_map.mpr
    refine ⟨(backend (key w), w), ?_, rfl⟩
    apply List.mem_filter.mpr
    refine ⟨List.mem_map.mpr ⟨w, hmem, rfl⟩, ?_⟩
    simp [herr]

theorem gcErrorCount_zero {α : Type} (batch : List α) (key : α → String)
    (backend : String → DeleteOutcome) :
    (gcErrorCount batch key backend = 0) ↔
      (∀ u ∈ batch, (backend (key u)).isError = false) := by
  unfold gcErrorCount
  rw [List.length_eq_zero, List.filter_eq_nil_iff]
  constructor
  · intro h u hu
    have := h (backend (key u), u) (List.mem_map.mpr ⟨u, hu, rfl⟩)
    simpa using this
  · intro h r hr
    rcases List.mem_map.mp hr with ⟨v, hv, heq⟩
    subst heq
    simpa using h v hv

theorem mem_findExpiredUploads {s : St} {th : Int} {lim : Nat} {u : UploadRec}
    (h : u ∈ findExpiredUploads s th lim) :
    u ∈ s.uploads ∧ u.expiresAt < th := by
  unfold findExpiredUploads at h
  have h1 := List.mem_of_mem_take h
  have h2 := List.mem_filter.mp h1
  refine ⟨((sortByKey_perm (·.expiresAt) s.uploads).mem_iff).mp h2.1, ?_⟩
  simpa using h2.2

theorem mem_findOrphanedBlobs {s : St} {th : Int} {lim : Nat} {b : BlobRec}
    (h : b ∈ findOrphanedBlobs s th lim) :
    b ∈ s.blobs ∧ b.refCount = 0 ∧ b.updatedAt < th := by
  unfold findOrphanedBlobs at h
  have h1 := List.mem_of_mem_take h
  have h2 := List.mem_filter.mp h1
  refine ⟨((sortByKey_perm (·.updatedAt) s.blobs).mem_iff).mp h2.1, ?_⟩
  have := h2.2
  simp only [Bool.and_eq_true, beq_iff_eq, decide_eq_true_eq] at this
  exact this

theorem contains_iff_mem {α : Type} [BEq α] [LawfulBEq α] (l : List α)
    (a : α) : l.contains a = true ↔ a ∈ l := by
  rw [List.contains_iff_exists_mem_beq]
  simp

/-- C8: Upload GC retry and rescheduling policy — on a run with a stored
configuration and GC not frozen: the batch is bounded at 100 entries;
upload metadata records are deleted for exactly the batch entries whose
backend delete returned `deleted` or `not_found`, entries whose backend
delete threw staying in place for a later run; and an immediate
follow-up run is scheduled iff the batch held exactly 100 entries and
zero backend deletes threw. -/
theorem gcExpiredUploads_policy (config : StoredValue) (s : St) (now : Int)
    (backend : String → DeleteOutcome)
    (hfreeze : config.freezeGc.getD false = false)
    (huniq : uploadsUnique s) :
    (findExpiredUploads s (now - UPLOAD_GRACE_PERIOD_MS) GC_BATCH_SIZE).length
        ≤ GC_BATCH_SIZE ∧
    (∀ u ∈ (gcExpiredUploads (some config) s now backend).state.uploads,
      u ∈ s.uploads) ∧
    (∀ u ∈ s.uploads,
      ((u ∉ (gcExpiredUploads (some config) s now backend).state.uploads) ↔
        (u ∈ findExpiredUploads s (now - UPLOAD_GRACE_PERIOD_MS) GC_BATCH_SIZE ∧
          (backend u.blobId).isError = false))) ∧
    ((gcExpiredUploads (some config) s now backend).rescheduled = true ↔
      ((findExpiredUploads s (now - UPLOAD_GRACE_PERIOD_MS)
          GC_BATCH_SIZE).length = GC_BATCH_SIZE ∧
        ∀ u ∈ findExpiredUploads s (now - UPLOAD_GRACE_PERIOD_MS)
          GC_BATCH_SIZE, (backend u.blobId).isError = false)) := by
  have hlen : (findExpiredUploads s (now - UPLOAD_GRACE_PERIOD_MS)
      GC_BATCH_SIZE).length ≤ GC_BATCH_SIZE := by
    unfold findExpiredUploads
    exact List.length_take_le ..
  set batch := findExpiredUploads s (now - UPLOAD_GRACE_PERIOD_MS)
    GC_BATCH_SIZE with hbatchdef
  set okD := gcOkRecords batch (fun u => u.blobId) backend with hokdef
  have hrun : gcExpiredUploads (some config) s now backend =
      (if batch.isEmpty then (⟨s, false⟩ : GcRun)
       else
        ⟨if okD.isEmpty then s
         else { s with uploads := s.uploads.filter (fun u =>
            !((okD.map (·.blobId)).contains u.blobId)) },
         batch.length == GC_BATCH_SIZE &&
           gcErrorCount batch (fun u => u.blobId) backend == 0⟩) := by
    unfold gcExpiredUploads
    simp only [hfreeze, Bool.false_eq_true, if_false, hbatchdef, hokdef]
  have hbatchsub : ∀ u ∈ batch, u ∈ s.uploads := by
    intro u hu
    exact (mem_findExpiredUploads hu).1
  rw [hrun]
  by_cases hemp : batch.isEmpty
  · have hnil : batch = [] := List.isEmpty_iff.mp hemp
    rw [if_pos hemp]
    refine ⟨hlen, fun u hu => hu, ?_, ?_⟩
    · intro u hu
      constructor
      · intro hc
        exact absurd hu hc
      · rintro ⟨hb, -⟩
        rw [hnil] at hb
        exact absurd hb (List.not_mem_nil u)
    · constructor
      · intro h
        exact absurd h (by simp)
      · rintro ⟨hb, -⟩
        rw [hnil] at hb
        exact absurd hb (by simp [GC_BATCH_SIZE])
  · rw [if_neg hemp]
    have hmemok : ∀ w, w ∈ okD ↔
        (w ∈ batch ∧ (backend w.blobId).isError = false) := by
      intro w
      rw [hokdef]
      exact mem_gcOkRecords batch (fun u => u.blobId) backend w
    refine ⟨hlen, ?_, ?_, ?_⟩
    · intro u hu
      by_cases hok : okD.isEmpty
      · rw [if_pos hok] at hu
        exact hu
      · rw [if_neg hok] at hu
        exact (List.mem_filter.mp hu).1
    · intro u hu
      by_cases hok : okD.isEmpty
      · rw [if_pos hok]
        have hoknil : okD = [] := List.isEmpty_iff.mp hok
        constructor
        · intro hc
          exact absurd hu hc
        · rintro ⟨hb, herr⟩
          have : u ∈ okD := (hmemok u).mpr ⟨hb, herr⟩
          rw [hoknil] at this
          exact absurd this (List.not_mem_nil u)
      · rw [if_neg hok]
        simp only
        constructor
        · intro hc
          by_cases hcont : (okD.map (·.blobId)).contains u.blobId = true
          · rcases List.mem_map.mp ((contains_iff_mem ..).mp hcont) with
              ⟨w, hw, hweq⟩
            have hwb := (hmemok w).mp hw
            have hwu : w = u := pairwise_key_inj huniq w
              (hbatchsub w hwb.1) u hu hweq
            rw [← hwu]
            exact hwb
          · exfalso
            apply hc
            apply List.mem_filter.mpr
            refine ⟨hu, ?_⟩
            have hfalse : (okD.map (·.blobId)).contains u.blobId = false := by
              rcases Bool.eq_false_or_eq_true
                ((okD.map (·.blobId)).contains u.blobId) with h | h
              · exact absurd h hcont
              · exact h
            rw [hfalse]
            rfl
        · rintro ⟨hb, herr⟩
          intro hc
          have hk := (List.mem_filter.mp hc).2
          have : u ∈ okD := (hmemok u).mpr ⟨hb, herr⟩
          have hmem : u.blobId ∈ okD.map (·.blobId) :=
            List.mem_map.mpr ⟨u, this, rfl⟩
          rw [← contains_iff_mem] at hmem
          rw [hmem] at hk
          exact Bool.noConfusion hk
    · simp only [Bool.and_eq_true, beq_iff_eq]
      rw [gcErrorCount_zero]

/-- C8 witness: a concrete expired upload whose backend delete succeeds
is removed from the uploads table by the GC run. -/
theorem gcExpiredUploads_policy_witness :
    (⟨"U", 0, some "t", some 1⟩ : UploadRec) ∉
      (gcExpiredUploads (some ⟨"cfg", none, none, none, none, none⟩)
        ⟨[], [], [⟨"U", 0, some "t", some 1⟩]⟩ 3600005
        (fun _ => DeleteOutcome.deleted)).state.uploads :=
  ((gcExpiredUploads_policy ⟨"cfg", none, none, none, none, none⟩
      ⟨[], [], [⟨"U", 0, some "t", some 1⟩]⟩ 3600005
      (fun _ => DeleteOutcome.deleted) (by decide) (by decide)).2.2.1
    ⟨"U", 0, some "t", some 1⟩ (by decide)).mpr (by decide)

/-- C7: Blob GC boundary — on a run with a stored configuration and GC
not frozen, with grace period `G = blobGracePeriod.getD 86400` seconds
(default 24 h): every candidate is a blob record with `refCount = 0` and
`updatedAt` strictly below `now - G·1000`; when no more than the batch
limit of records match, the candidates are exactly the matching records;
a blob whose `updatedAt` sits exactly at the threshold is not collected;
and a candidate's blob metadata record is deleted iff its backend delete
returned `deleted` or `not_found` — never when it threw. -/
theorem gcOrphanedBlobs_boundary (config : StoredValue) (s : St) (now : Int)
    (backend : String → DeleteOutcome)
    (hfreeze : config.freezeGc.getD false = false)
    (huniq : blobsUnique s) :
    (config.blobGracePeriod = none →
      config.blobGracePeriod.getD DEFAULT_BLOB_GRACE_PERIOD_S = 24 * 60 * 60) ∧
    (∀ b ∈ findOrphanedBlobs s
        (now - config.blobGracePeriod.getD DEFAULT_BLOB_GRACE_PERIOD_S * 1000)
        GC_BATCH_SIZE,
      b ∈ s.blobs ∧ b.refCount = 0 ∧
        b.updatedAt <
          now - config.blobGracePeriod.getD DEFAULT_BLOB_GRACE_PERIOD_S * 1000) ∧
    ((s.blobs.filter (fun b => b.refCount == 0 && b.updatedAt <
        now - config.blobGracePeriod.getD DEFAULT_BLOB_GRACE_PERIOD_S * 1000)).length
        ≤ GC_BATCH_SIZE →
      ∀ b ∈ s.blobs, b.refCount = 0 →
        b.updatedAt <
          now - config.blobGracePeriod.getD DEFAULT_BLOB_GRACE_PERIOD_S * 1000 →
        b ∈ findOrphanedBlobs s
          (now - config.blobGracePeriod.getD DEFAULT_BLOB_GRACE_PERIOD_S * 1000)
          GC_BATCH_SIZE) ∧
    (∀ b ∈ s.blobs,
      b.updatedAt =
          now - config.blobGracePeriod.getD DEFAULT_BLOB_GRACE_PERIOD_S * 1000 →
        b ∉ findOrphanedBlobs s
          (now - config.blobGracePeriod.getD DEFAULT_BLOB_GRACE_PERIOD_S * 1000)
          GC_BATCH_SIZE) ∧
    (∀ b ∈ s.blobs,
      ((b ∉ (gcOrphanedBlobs (some config) s now backend).state.blobs) ↔
        (b ∈ findOrphanedBlobs s
            (now - config.blobGracePeriod.getD DEFAULT_BLOB_GRACE_PERIOD_S * 1000)
            GC_BATCH_SIZE ∧
          (backend b.blobId).isError = false))) := by
  set th := now - config.blobGracePeriod.getD DEFAULT_BLOB_GRACE_PERIOD_S * 1000
    with hthdef
  set batch := findOrphanedBlobs s th GC_BATCH_SIZE with hbatchdef
  set okD := gcOkRecords batch (fun b => b.blobId) backend with hokdef
  have hbatchsub : ∀ b ∈ batch, b ∈ s.blobs := by
    intro b hb
    exact (mem_findOrphanedBlobs hb).1
  have hrun : gcOrphanedBlobs (some config) s now backend =
      (if batch.isEmpty then (⟨s, false⟩ : GcRun)
       else
        ⟨if okD.isEmpty then s
         else { s with blobs := s.blobs.filter (fun b =>
            !((okD.map (·.blobId)).contains b.blobId)) },
         batch.length == GC_BATCH_SIZE &&
           gcErrorCount batch (fun b => b.blobId) backend == 0⟩) := by
    unfold gcOrphanedBlobs
    simp only [hfreeze, Bool.false_eq_true, if_false, hthdef, hbatchdef, hokdef]
  have hmemok : ∀ w, w ∈ okD ↔
      (w ∈ batch ∧ (backend w.blobId).isError = false) := by
    intro w
    rw [hokdef]
    exact mem_gcOkRecords batch (fun b => b.blobId) backend w
  refine ⟨fun h => by rw [h]; rfl, fun b hb => mem_findOrphanedBlobs hb, ?_, ?_, ?_⟩
  · intro hcount b hb hrc hupd
    have hperm := (sortByKey_perm (fun bl => bl.updatedAt) s.blobs).filter
      (fun bl => bl.refCount == 0 && decide (bl.updatedAt < th))
    have hflen : ((sortByKey (fun bl => bl.updatedAt) s.blobs).filter
        (fun bl => bl.refCount == 0 && decide (bl.updatedAt < th))).length ≤
        GC_BATCH_SIZE := by
      rw [hperm.length_eq]
      exact hcount
    have hmemf : b ∈ (sortByKey (fun bl => bl.updatedAt) s.blobs).filter
        (fun bl => bl.refCount == 0 && decide (bl.updatedAt < th)) := by
      apply List.mem_filter.mpr
      refine ⟨((sortByKey_perm (fun bl => bl.updatedAt) s.blobs).mem_iff).mpr hb, ?_⟩
      simp [hrc, hupd]
    rw [hbatchdef]
    unfold findOrphanedBlobs
    rw [List.take_of_length_le hflen]
    exact hmemf
  · intro b _ hupd hmem
    have := (mem_findOrphanedBlobs hmem).2.2
    rw [hupd] at this
    exact lt_irrefl _ this
  · intro b hb
    rw [hrun]
    by_cases hemp : batch.isEmpty
    · have hnil : batch = [] := List.isEmpty_iff.mp hemp
      rw [if_pos hemp]
      constructor
      · intro hc
        exact absurd hb hc
      · rintro ⟨hbm, -⟩
        rw [hnil] at hbm
        exact absurd hbm (List.not_mem_nil b)
    · rw [if_neg hemp]
      by_cases hok : okD.isEmpty
      · rw [if_pos hok]
        have hoknil : okD = [] := List.isEmpty_iff.mp hok
        constructor
        · intro hc
          exact absurd hb hc
        · rintro ⟨hbm, herr⟩
          have : b ∈ okD := (hmemok b).mpr ⟨hbm, herr⟩
          rw [hoknil] at this
          exact absurd this (List.not_mem_nil b)
      · rw [if_neg hok]
        simp only
        constructor
        · intro hc
          by_cases hcont : (okD.map (·.blobId)).contains b.blobId = true
          · rcases List.mem_map.mp ((contains_iff_mem ..).mp hcont) with
              ⟨w, hw, hweq⟩
            have hwb := (hmemok w).mp hw
            have hwu : w = b := pairwise_key_inj huniq w
              (hbatchsub w hwb.1) b hb hweq
            rw [← hwu]
            exact hwb
          · exfalso
            apply hc
            apply List.mem_filter.mpr
            refine ⟨hb, ?_⟩
            have hfalse : (okD.map (·.blobId)).contains b.blobId = false := by
              rcases Bool.eq_false_or_eq_true
                ((okD.map (·.blobId)).contains b.blobId) with h | h
              · exact absurd h hcont
              · exact h
            rw [hfalse]
            rfl
        · rintro ⟨hbm, herr⟩
          intro hc
          have hk := (List.mem_filter.mp hc).2
          have : b ∈ okD := (hmemok b).mpr ⟨hbm, herr⟩
          have hmem : b.blobId ∈ okD.map (·.blobId) :=
            List.mem_map.mpr ⟨b, this, rfl⟩
          rw [← contains_iff_mem] at hmem
          rw [hmem] at hk
          exact Bool.noConfusion hk

/-- C7 witness: a blob with `refCount = 0` whose `updatedAt` sits exactly
at the default grace threshold is not collected. -/
theorem gcOrphanedBlobs_boundary_witness :
    (⟨"B", "t", 1, 0, 0⟩ : BlobRec) ∉
      findOrphanedBlobs ⟨[], [⟨"B", "t", 1, 0, 0⟩], []⟩
        ((86400000 : Int) - (none : Option Int).getD DEFAULT_BLOB_GRACE_PERIOD_S * 1000)
        GC_BATCH_SIZE :=
  (gcOrphanedBlobs_boundary ⟨"cfg", none, none, none, none, none⟩
      ⟨[], [⟨"B", "t", 1, 0, 0⟩], []⟩ 86400000 (fun _ => DeleteOutcome.deleted)
      (by decide) (by decide)).2.2.2.1 ⟨"B", "t", 1, 0, 0⟩ (by decide) (by decide)

/-! ## Dangling-reference lemmas -/

theorem fileAt_some {s : St} {p : String} {f : FileRec}
    (h : fileAt s p = some f) : f ∈ s.files ∧ f.path = p := by
  unfold fileAt at h
  refine ⟨List.mem_of_find?_eq_some h, ?_⟩
  have := List.find?_some h
  simpa using this

theorem blobAt_some {s : St} {b : String} {bl : BlobRec}
    (h : blobAt s b = some bl) : bl ∈ s.blobs ∧ bl.blobId = b := by
  unfold blobAt at h
  refine ⟨List.mem_of_find?_eq_some h, ?_⟩
  have := List.find?_some h
  simpa using this

theorem findUnique_nil {l : List α} {q : α → Bool} (h : l.filter q = []) :
    findUnique l q = .ok none := by
  unfold findUnique
  rw [h]

theorem any_of_fileAt {s : St} {p : String} {f : FileRec}
    (h : fileAt s p = some f) :
    s.files.any (fun fr => fr.path == p) = true := by
  rcases fileAt_some h with ⟨hm, hp⟩
  exact List.any_eq_true.mpr ⟨f, hm, by simp [hp]⟩

/-- When no blob record carries the blobId, the shared decrement pattern
is a successful no-op. -/
theorem decrefBlob_skip {s : St} {b : String} (now : Int)
    (h : ∀ bl ∈ s.blobs, bl.blobId ≠ b) :
    decrefBlob s b now = .ok s := by
  unfold decrefBlob
  rw [findUnique_nil (List.filter_eq_nil_iff.mpr
    (fun bl hbl => by simpa using h bl hbl))]
  rfl

/-- C10: Silent tolerance of dangling blob references on decrement — when
no blob record carries the referenced blobId `b`, every decrement site
still completes successfully, deleting or repointing the file record as
usual, throwing no error, and modifying no blob record: the shared
decrement itself (`decrefBlob`, used by the transact delete operation and
by file-expiry cleanup through `deleteFileAndDecrefBlob`), the move
dest-overwrite, the copy dest-overwrite (whose only blob write remains
the source-blob increment), and the `commitFiles` repoint of an existing
file (whose only blob write remains the insertion of the new blob). -/
theorem dangling_decrement_tolerated (s : St) (now : Int) (b : String)
    (hnb : ∀ bl ∈ s.blobs, bl.blobId ≠ b) :
    (decrefBlob s b now = .ok s) ∧
    (∀ p f, fileAt s p = some f →
      deleteFileAndDecrefBlob s p b now =
        .ok ⟨s.files.filter (fun fr => !(fr.path == p)), s.blobs, s.uploads⟩) ∧
    (∀ sf d dest, pathsUnique s → fileAt s dest.path = some d →
      d.blobId = b → fileAt s sf.path = some sf → sf.path ≠ dest.path →
      applyMove s sf dest now =
        .ok ⟨(s.files.filter (fun fr => !(fr.path == dest.path))).map
            (fun fr => if fr.path == sf.path then
              { fr with path := dest.path, attributes := none } else fr),
          s.blobs, s.uploads⟩) ∧
    (∀ sf d dest, pathsUnique s → blobsUnique s →
      fileAt s dest.path = some d → d.blobId = b →
      applyCopy s sf dest now =
        .ok ⟨s.files.map (fun fr => if fr.path == dest.path then
            { fr with blobId := sf.blobId, attributes := none } else fr),
          (match blobAt s sf.blobId with
           | some _ => s.blobs.map (fun bl => if bl.blobId == sf.blobId then
               { bl with refCount := bl.refCount + 1, updatedAt := now }
             else bl)
           | none => s.blobs),
          s.uploads⟩) ∧
    (∀ m (f : FileCommit) md ef, pathsUnique s → uploadsUnique s →
      mapGet m f.blobId = some md → fileAt s f.path = some ef →
      ef.blobId = b → f.blobId ≠ b →
      commitOne s m f now =
        .ok ⟨s.files.map (fun fr => if fr.path == f.path then
            { fr with blobId := f.blobId, attributes := f.attributes }
          else fr),
          s.blobs ++ [⟨f.blobId, md.contentType, md.size, 1, now⟩],
          (match s.uploads.find? (fun u => u.blobId == f.blobId) with
           | some _ => s.uploads.filter (fun u => !(u.blobId == f.blobId))
           | none => s.uploads)⟩) := by
  refine ⟨decrefBlob_skip now hnb, ?_, ?_, ?_, ?_⟩
  · intro p f hf
    unfold deleteFileAndDecrefBlob deleteFileAt
    rw [if_pos (any_of_fileAt hf)]
    simp only [bind_ok]
    exact decrefBlob_skip now hnb
  · intro sf d dest hp hd hdb hsf hne
    unfold applyMove
    rw [findUnique_files s dest.path hp, hd]
    simp only [bind_ok]
    rcases fileAt_some hd with ⟨hdm, hdp⟩
    rw [hdp]
    unfold deleteFileAt
    rw [if_pos (any_of_fileAt hd)]
    simp only [bind_ok]
    rw [hdb]
    have hstep : decrefBlob ⟨s.files.filter (fun f => !(f.path == dest.path)),
        s.blobs, s.uploads⟩ b now =
        .ok ⟨s.files.filter (fun f => !(f.path == dest.path)),
          s.blobs, s.uploads⟩ := decrefBlob_skip now hnb
    rw [hstep]
    simp only [bind_ok]
    unfold patchFileAt
    rcases fileAt_some hsf with ⟨hsm, hsp⟩
    have hany : (s.files.filter (fun fr => !(fr.path == dest.path))).any
        (fun fr => fr.path == sf.path) = true := by
      apply List.any_eq_true.mpr
      refine ⟨sf, List.mem_filter.mpr ⟨hsm, ?_⟩, by simp [hsp]⟩
      simp [hsp]
      exact hne
    rw [if_pos hany]
  · intro sf d dest hp hbu hd hdb
    unfold applyCopy
    rw [findUnique_blobs s sf.blobId hbu]
    simp only [bind_ok]
    rcases fileAt_some hd with ⟨hdm, hdp⟩
    cases hba : blobAt s sf.blobId with
    | none =>
        simp only
        rw [findUnique_files s dest.path hp, hd]
        simp only [bind_ok]
        rw [hdp]
        unfold patchFileAt
        rw [if_pos (any_of_fileAt hd)]
        simp only [bind_ok]
        rw [hdb]
        have hstep : decrefBlob ⟨s.files.map (fun fr =>
            if fr.path == dest.path then
              { fr with blobId := sf.blobId, attributes := none }
            else fr), s.blobs, s.uploads⟩ b now =
            .ok ⟨s.files.map (fun fr =>
              if fr.path == dest.path then
                { fr with blobId := sf.blobId, attributes := none }
              else fr), s.blobs, s.uploads⟩ := decrefBlob_skip now hnb
        rw [hstep]
    | some srcbl =>
        simp only [patchBlobs]
        rw [findUnique_files s dest.path hp, hd]
        simp only [bind_ok]
        rw [hdp]
        unfold patchFileAt
        dsimp only
        rw [if_pos (any_of_fileAt hd)]
        simp only [bind_ok]
        rw [hdb]
        have hnb2 : ∀ bl ∈ (s.blobs.map (fun bl =>
            if bl.blobId == sf.blobId then
              { bl with refCount := bl.refCount + 1, updatedAt := now }
            else bl)), bl.blobId ≠ b := by
          intro bl hbl
          rcases List.mem_map.mp hbl with ⟨bl0, hbl0, hble⟩
          by_cases hh : bl0.blobId == sf.blobId
          · rw [if_pos hh] at hble
            rw [← hble]
            exact hnb bl0 hbl0
          · rw [if_neg hh] at hble
            rw [← hble]
            exact hnb bl0 hbl0
        have hstep : decrefBlob ⟨s.files.map (fun fr =>
            if fr.path == dest.path then
              { fr with blobId := sf.blobId, attributes := none }
            else fr),
            s.blobs.map (fun bl =>
              if bl.blobId == sf.blobId then
                { bl with refCount := bl.refCount + 1, updatedAt := now }
              else bl), s.uploads⟩ b now =
            .ok ⟨s.files.map (fun fr =>
              if fr.path == dest.path then
                { fr with blobId := sf.blobId, attributes := none }
              else fr),
              s.blobs.map (fun bl =>
                if bl.blobId == sf.blobId then
                  { bl with refCount := bl.refCount + 1, updatedAt := now }
                else bl), s.uploads⟩ := decrefBlob_skip now hnb2
        rw [hstep]
  · intro m f md ef hp huu hmd hef hefb hfb
    unfold commitOne
    rw [hmd]
    simp only [pure_eq_ok, bind_ok]
    simp only [insertBlob]
    have hfu : findUnique s.files
        (fun fr => fr.path == f.path) = .ok (some ef) := by
      rw [findUnique_files s f.path hp, hef]
    rw [hfu]
    simp only [bind_ok]
    rcases fileAt_some hef with ⟨hem, hep⟩
    rw [hep]
    unfold patchFileAt
    dsimp only
    rw [if_pos (any_of_fileAt hef)]
    simp only [bind_ok]
    have hnb3 : ∀ bl ∈ (s.blobs ++
        [(⟨f.blobId, md.contentType, md.size, 1, now⟩ : BlobRec)]),
        bl.blobId ≠ ef.blobId := by
      intro bl hbl
      rcases List.mem_append.mp hbl with h1 | h1
      · rw [hefb]
        exact hnb bl h1
      · rw [List.mem_singleton.mp h1, hefb]
        exact hfb
    have hstep : decrefBlob ⟨s.files.map (fun fr =>
        if fr.path == f.path then
          { fr with blobId := f.blobId, attributes := f.attributes }
        else fr),
        s.blobs ++ [⟨f.blobId, md.contentType, md.size, 1, now⟩],
        s.uploads⟩ ef.blobId now =
        .ok ⟨s.files.map (fun fr =>
          if fr.path == f.path then
            { fr with blobId := f.blobId, attributes := f.attributes }
          else fr),
          s.blobs ++ [⟨f.blobId, md.contentType, md.size, 1, now⟩],
          s.uploads⟩ := decrefBlob_skip now hnb3
    rw [hstep]
    simp only [bind_ok]
    rw [findUnique_of_atMostOne (pairwise_key_atMostOne huu f.blobId)]
    cases hfnd : s.uploads.find? (fun u => u.blobId == f.blobId) with
    | none => rfl
    | some u =>
        have hub : u.blobId = f.blobId := by
          simpa using List.find?_some hfnd
        simp only [bind_ok]
        unfold deleteUploadsByBlobId
        rw [hub]

/-- C10 witness: deleting a concrete file whose blobId has no blob record
succeeds, removes the file, and leaves the (empty) blobs table alone. -/
theorem dangling_decrement_tolerated_witness :
    deleteFileAndDecrefBlob ⟨[⟨"/a", "B", none⟩], [], []⟩ "/a" "B" 5 =
      .ok ⟨[], [], []⟩ := by
  have h := (dangling_decrement_tolerated ⟨[⟨"/a", "B", none⟩], [], []⟩ 5 "B"
    (by decide)).2.1 "/a" ⟨"/a", "B", none⟩ (by decide)
  simpa using h

/-! ## Commit-pipeline lemmas -/

theorem any_congr {l : List α} {p q : α → Bool} (h : ∀ a ∈ l, p a = q a) :
    l.any p = l.any q := by
  induction l with
  | nil => rfl
  | cons x t ih =>
      simp only [List.any_cons]
      rw [h x (by simp), ih (fun a ha => h a (by simp [ha]))]

theorem mapGet_isSome_any (m : List (String × BlobMetadata)) (b : String) :
    (mapGet m b).isSome = m.any (fun e => e.1 == b) := by
  unfold mapGet
  induction m with
  | nil => rfl
  | cons e t ih =>
      cases hb : (e.1 == b) with
      | true => simp [List.find?_cons, hb]
      | false => simp [List.find?_cons, hb, ih]

theorem mapSet_any_key (m : List (String × BlobMetadata)) (k : String)
    (v : BlobMetadata) (b : String) :
    (mapSet m k v).any (fun e => e.1 == b) =
      (m.any (fun e => e.1 == b) || k == b) := by
  unfold mapSet
  by_cases hin : m.any (fun e => e.1 == k)
  · rw [if_pos hin]
    rcases List.any_eq_true.mp hin with ⟨e0, he0, he0k⟩
    by_cases hkb : k == b
    · have h1 : (m.map (fun e => if e.1 == k then (k, v) else e)).any
          (fun e => e.1 == b) = true := by
        apply List.any_eq_true.mpr
        refine ⟨(k, v), List.mem_map.mpr ⟨e0, he0, by rw [if_pos he0k]⟩, hkb⟩
      rw [h1, hkb, Bool.or_true]
    · have h1 : ∀ e ∈ m, (((fun e => e.1 == b) ∘
          (fun e => if e.1 == k then (k, v) else e)) e) = (e.1 == b) := by
        intro e _
        by_cases hek : e.1 == k
        · have hek' : e.1 = k := by simpa using hek
          simp only [Function.comp_apply]
          rw [if_pos hek, ← hek']
        · simp only [Function.comp_apply]
          rw [if_neg hek]
      rw [List.any_map, any_congr h1]
      simp [hkb]
  · rw [if_neg hin]
    rw [List.any_append]
    simp

theorem buildMetadataMap_go (s : St) (hu : uploadsUnique s) :
    ∀ (files : List FileCommit) (m0 : List (String × BlobMetadata)),
      ∃ m, (files.foldlM (fun m f => do
          let upload? ← findUnique s.uploads (fun u => u.blobId == f.blobId)
          match upload? with
          | some u =>
              match u.contentType, u.size with
              | some ct, some sz => pure (mapSet m f.blobId ⟨ct, sz⟩)
              | _, _ => pure m
          | none => pure m) m0) = .ok m ∧
        ∀ b, (mapGet m b).isSome =
          ((mapGet m0 b).isSome ||
            (files.any (fun f => f.blobId == b) && uploadHasMetadata s b)) := by
  intro files
  induction files with
  | nil =>
      intro m0
      exact ⟨m0, rfl, fun b => by simp⟩
  | cons f fs ih =>
      intro m0
      rw [List.foldlM_cons]
      rw [findUnique_of_atMostOne (pairwise_key_atMostOne hu f.blobId)]
      simp only [bind_ok]
      cases hfd : s.uploads.find? (fun u => u.blobId == f.blobId) with
      | none =>
          rcases ih m0 with ⟨m, hm, hchar⟩
          refine ⟨m, hm, ?_⟩
          intro b
          rw [hchar b]
          cases hfb : (f.blobId == b) with
          | false => simp [List.any_cons, hfb]
          | true =>
              have hfb' : f.blobId = b := by simpa using hfb
              have huhm : uploadHasMetadata s b = false := by
                unfold uploadHasMetadata
                rw [← hfb', hfd]
              simp [List.any_cons, hfb, huhm]
      | some u =>
          obtain ⟨ubid, uexp, uct, usz⟩ := u
          cases uct with
          | none =>
              dsimp only
              simp only [pure_eq_ok, bind_ok]
              rcases ih m0 with ⟨m, hm, hchar⟩
              refine ⟨m, hm, ?_⟩
              intro b
              rw [hchar b]
              cases hfb : (f.blobId == b) with
              | false => simp [List.any_cons, hfb]
              | true =>
                  have hfb' : f.blobId = b := by simpa using hfb
                  have huhm : uploadHasMetadata s b = false := by
                    unfold uploadHasMetadata
                    rw [← hfb', hfd]
                    rfl
                  simp [List.any_cons, hfb, huhm]
          | some ct =>
              cases usz with
              | none =>
                  dsimp only
                  simp only [pure_eq_ok, bind_ok]
                  rcases ih m0 with ⟨m, hm, hchar⟩
                  refine ⟨m, hm, ?_⟩
                  intro b
                  rw [hchar b]
                  cases hfb : (f.blobId == b) with
                  | false => simp [List.any_cons, hfb]
                  | true =>
                      have hfb' : f.blobId = b := by simpa using hfb
                      have huhm : uploadHasMetadata s b = false := by
                        unfold uploadHasMetadata
                        rw [← hfb', hfd]
                        rfl
                      simp [List.any_cons, hfb, huhm]
              | some sz =>
                  dsimp only
                  simp only [pure_eq_ok, bind_ok]
                  rcases ih (mapSet m0 f.blobId ⟨ct, sz⟩) with ⟨m, hm, hchar⟩
                  refine ⟨m, hm, ?_⟩
                  intro b
                  rw [hchar b]
                  rw [mapGet_isSome_any, mapSet_any_key, ← mapGet_isSome_any]
                  cases hfb : (f.blobId == b) with
                  | false => simp [List.any_cons, hfb]
                  | true =>
                      have hfb' : f.blobId = b := by simpa using hfb
                      have huhm : uploadHasMetadata s b = true := by
                        unfold uploadHasMetadata
                        rw [← hfb', hfd]
                        rfl
                      simp [List.any_cons, hfb, huhm]

theorem checkCAS_ok (s : St) (hp : pathsUnique s) :
    ∀ files : List FileCommit, files.find? (casViolation s) = none →
      checkCAS s files = .ok () := by
  intro files
  induction files with
  | nil => intro _; rfl
  | cons f fs ih =>
      intro hfind
      have hv : casViolation s f = false := by
        cases hvv : casViolation s f with
        | false => rfl
        | true =>
            rw [List.find?_cons_of_pos _ hvv] at hfind
            exact Option.noConfusion hfind
      have htail : fs.find? (casViolation s) = none := by
        rw [List.find?_cons_of_neg _ (by simp [hv])] at hfind
        exact hfind
      unfold checkCAS
      cases hb : f.basis with
      | none => exact ih htail
      | some b =>
          rw [findUnique_files s f.path hp]
          simp only [bind_ok]
          have heq : (fileAt s f.path).map (·.blobId) = b := by
            unfold casViolation at hv
            rw [hb] at hv
            simpa using hv
          rw [if_neg (by rw [heq]; exact fun hc => hc rfl)]
          exact ih htail

theorem checkCAS_error (s : St) (hp : pathsUnique s) :
    ∀ (files : List FileCommit) (f0 : FileCommit) (b0 : Option String),
      files.find? (casViolation s) = some f0 → f0.basis = some b0 →
      checkCAS s files = .error (.conflict ⟨.CAS_CONFLICT, f0.path, b0,
        (fileAt s f0.path).map (·.blobId), none⟩) := by
  intro files
  induction files with
  | nil => intro f0 b0 h; exact absurd h (by simp)
  | cons f fs ih =>
      intro f0 b0 hfind hb0
      cases hvv : casViolation s f with
      | true =>
          rw [List.find?_cons_of_pos _ hvv] at hfind
          have hf0 : f = f0 := by simpa using hfind
          subst hf0
          unfold checkCAS
          rw [hb0]
          rw [findUnique_files s f.path hp]
          simp only [bind_ok]
          have hne : (fileAt s f.path).map (·.blobId) ≠ b0 := by
            unfold casViolation at hvv
            rw [hb0] at hvv
            simpa using hvv
          rw [if_pos hne]
      | false =>
          rw [List.find?_cons_of_neg _ (by simp [hvv])] at hfind
          unfold checkCAS
          cases hb : f.basis with
          | none => exact ih f0 b0 hfind hb0
          | some b =>
              rw [findUnique_files s f.path hp]
              simp only [bind_ok]
              have heq : (fileAt s f.path).map (·.blobId) = b := by
                unfold casViolation at hvv
                rw [hb] at hvv
                simpa using hvv
              rw [if_neg (by rw [heq]; exact fun hc => hc rfl)]
              exact ih f0 b0 hfind hb0

theorem commitOne_error {s : St} {m : List (String × BlobMetadata)}
    {f : FileCommit} {now : Int} {e : Err}
    (h : commitOne s m f now = .error e) :
    e = .internalAssert ∨ e = .notUnique ∨ e = .docMissing := by
  unfold commitOne at h
  cases hmd : mapGet m f.blobId with
  | none =>
      rw [hmd] at h
      simp at h
      exact Or.inl h.symm
  | some md =>
      rw [hmd] at h
      simp only [pure_eq_ok, bind_ok] at h
      cases hf1 : findUnique (insertBlob s
          ⟨f.blobId, md.contentType, md.size, 1, now⟩).files
          (fun fr => fr.path == f.path) with
      | error e' =>
          rw [hf1] at h
          simp at h
          exact Or.inr (Or.inl (h ▸ findUnique_error hf1))
      | ok o =>
          rw [hf1] at h
          simp only [bind_ok] at h
          cases o with
          | some ef =>
              simp only at h
              cases hpatch : patchFileAt (insertBlob s
                  ⟨f.blobId, md.contentType, md.size, 1, now⟩) ef.path
                  (fun fr =>
                    { fr with blobId := f.blobId, attributes := f.attributes })
                  with
              | error e' =>
                  rw [hpatch] at h
                  simp at h
                  exact Or.inr (Or.inr (h ▸ patchFileAt_error hpatch))
              | ok s2 =>
                  rw [hpatch] at h
                  simp only [bind_ok] at h
                  cases hdec : decrefBlob s2 ef.blobId now with
                  | error e' =>
                      rw [hdec] at h
                      simp at h
                      exact Or.inr (Or.inl (h ▸ decrefBlob_error hdec))
                  | ok s3 =>
                      rw [hdec] at h
                      simp only [bind_ok] at h
                      cases hup : findUnique s3.uploads
                          (fun u => u.blobId == f.blobId) with
                      | error e' =>
                          rw [hup] at h
                          simp at h
                          exact Or.inr (Or.inl (h ▸ findUnique_error hup))
                      | ok o2 =>
                          rw [hup] at h
                          simp only [bind_ok] at h
                          cases o2 <;> simp at h
          | none =>
              simp only [bind_ok] at h
              cases hup : findUnique (insertFile (insertBlob s
                  ⟨f.blobId, md.contentType, md.size, 1, now⟩)
                  ⟨f.path, f.blobId, f.attributes⟩).uploads
                  (fun u => u.blobId == f.blobId) with
              | error e' =>
                  rw [hup] at h
                  simp at h
                  exact Or.inr (Or.inl (h ▸ findUnique_error hup))
              | ok o2 =>
                  rw [hup] at h
                  simp only [bind_ok] at h
                  cases o2 <;> simp at h

theorem commitLoop_error {m : List (String × BlobMetadata)} {now : Int} :
    ∀ {files : List FileCommit} {s : St} {e : Err},
      files.foldlM (fun st f => commitOne st m f now) s = .error e →
      e = .internalAssert ∨ e = .notUnique ∨ e = .docMissing := by
  intro files
  induction files with
  | nil =>
      intro s e h
      simp [List.foldlM] at h
  | cons f fs ih =>
      intro s e h
      rw [List.foldlM_cons] at h
      cases hc : commitOne s m f now with
      | error e' =>
          rw [hc] at h
          simp at h
          exact h ▸ commitOne_error hc
      | ok s1 =>
          rw [hc] at h
          simp only [bind_ok] at h
          exact ih h

/-- C5: `commitFiles` preconditions — for a non-empty batch against a
state with unique paths and unique uploads: if any entry's blobId lacks a
pending-upload record carrying `contentType` and `size`, the whole call
throws the error naming every such missing blobId, and this check comes
before the CAS checks (the conclusion holds whether or not CAS
violations exist); otherwise the call throws `CAS_CONFLICT` with
`expected = basis` and `found` = the current blobId at the path (or
null) for the first entry whose defined `basis` differs from the current
occupancy — and throws no conflict at all when no entry violates its
basis (basis null with an empty path, or basis equal to the current
blobId, passes); any failure leaves the metadata state unchanged under
Convex rollback semantics (`runMutation`). -/
theorem commitFiles_preconditions (files : List FileCommit) (s : St)
    (now : Int) (hp : pathsUnique s) (hu : uploadsUnique s)
    (hne : files ≠ []) :
    ((files.filter (fun f => !(uploadHasMetadata s f.blobId))) ≠ [] →
      commitFiles files s now = .error (.missingUploads
        ((files.filter (fun f => !(uploadHasMetadata s f.blobId))).map
          (·.blobId)))) ∧
    ((files.filter (fun f => !(uploadHasMetadata s f.blobId))) = [] →
      (∀ f0 b0, files.find? (casViolation s) = some f0 → f0.basis = some b0 →
        commitFiles files s now = .error (.conflict ⟨.CAS_CONFLICT, f0.path,
          b0, (fileAt s f0.path).map (·.blobId), none⟩)) ∧
      (files.find? (casViolation s) = none →
        ∀ c, commitFiles files s now ≠ .error (.conflict c))) ∧
    (∀ e, commitFiles files s now = .error e →
      runMutation (fun st => commitFiles files st now) s = s) := by
  rcases buildMetadataMap_go s hu files [] with ⟨m, hm, hchar⟩
  have hmchar : ∀ f ∈ files,
      ((mapGet m f.blobId).isNone = !(uploadHasMetadata s f.blobId)) := by
    intro f hf
    have hany : files.any (fun g => g.blobId == f.blobId) = true :=
      List.any_eq_true.mpr ⟨f, hf, by simp⟩
    have hch := hchar f.blobId
    rw [hany] at hch
    have hsome : (mapGet m f.blobId).isSome = uploadHasMetadata s f.blobId := by
      rw [hch]
      simp [mapGet]
    have hnone : (mapGet m f.blobId).isNone = !(mapGet m f.blobId).isSome := by
      cases mapGet m f.blobId <;> rfl
    rw [hnone, hsome]
  have hfiltereq : files.filter (fun f => (mapGet m f.blobId).isNone) =
      files.filter (fun f => !(uploadHasMetadata s f.blobId)) :=
    List.filter_congr hmchar
  have hb : buildMetadataMap s files = .ok m := hm
  have hcf : commitFiles files s now = (do
      checkMissing files m
      checkCAS s files
      files.foldlM (fun st f => commitOne st m f now) s) := by
    unfold commitFiles
    rw [if_neg (by simpa using hne), hb]
    rfl
  refine ⟨?_, ?_, ?_⟩
  · intro hmiss
    rw [hcf]
    unfold checkMissing
    rw [hfiltereq]
    rw [if_neg (by simpa using hmiss)]
    rfl
  · intro hnomiss
    constructor
    · intro f0 b0 hfind hb0
      rw [hcf]
      unfold checkMissing
      rw [hfiltereq, hnomiss]
      simp only [List.isEmpty_nil, if_true, List.map_nil, bind_ok]
      rw [checkCAS_error s hp files f0 b0 hfind hb0]
      rfl
    · intro hnoviol c
      rw [hcf]
      unfold checkMissing
      rw [hfiltereq, hnomiss]
      simp only [List.isEmpty_nil, if_true, bind_ok]
      rw [checkCAS_ok s hp files hnoviol]
      simp only [bind_ok]
      intro hcontra
      rcases commitLoop_error hcontra with h1 | h1 | h1 <;>
        exact Err.noConfusion h1
  · intro e he
    unfold runMutation
    simp only
    rw [he]

/-- C5 witness: the spec's CAS example — committing to `/a` with basis
`B1` while `/a` holds `B3` fails with `CAS_CONFLICT`, expected `B1`,
found `B3`. -/
theorem commitFiles_preconditions_witness :
    commitFiles [⟨"/a", "B2", some (some "B1"), none⟩]
        ⟨[⟨"/a", "B3", none⟩], [⟨"B3", "t", 1, 1, 0⟩],
          [⟨"B2", 0, some "t", some 2⟩]⟩ 9 =
      .error (.conflict ⟨.CAS_CONFLICT, "/a", some "B1", some "B3", none⟩) := by
  have h := ((commitFiles_preconditions [⟨"/a", "B2", some (some "B1"), none⟩]
      ⟨[⟨"/a", "B3", none⟩], [⟨"B3", "t", 1, 1, 0⟩],
        [⟨"B2", 0, some "t", some 2⟩]⟩ 9 (by decide) (by decide)
      (by decide)).2.1 (by decide)).1
    ⟨"/a", "B2", some (some "B1"), none⟩ (some "B1") (by decide) (by decide)
  simpa using h

/-! ## Move semantics lemmas -/

theorem find?_unique_mem {l : List α} {q : α → Bool} {y : α}
    (hy : y ∈ l) (hq : q y = true)
    (huniq : ∀ x ∈ l, q x = true → x = y) :
    l.find? q = some y := by
  induction l with
  | nil => cases hy
  | cons x t ih =>
      rcases List.mem_cons.mp hy with rfl | hyt
      · rw [List.find?_cons_of_pos _ hq]
      · by_cases hx : q x
        · have hxy : x = y := huniq x (by simp) hx
          subst hxy
          rw [List.find?_cons_of_pos _ hx]
        · rw [List.find?_cons_of_neg _ hx]
          exact ih hyt (fun z hz hqz => huniq z (by simp [hz]) hqz)

/-- C4 counterexample: a validated move whose overwritten dest referenced
the same blob as the source — the source blob's refCount is changed (2 to
1) by the move, against the claim that it is unchanged. -/
theorem move_source_refcount_changed_cx :
    applyOperation ⟨[⟨"/a", "B", some ⟨some 10⟩⟩, ⟨"/d", "B", none⟩],
        [⟨"B", "t", 1, 2, 0⟩], []⟩
        (.move ⟨"/a", "B", "t", 1, some ⟨some 10⟩⟩ ⟨"/d", none⟩) 0 9 =
      .ok ⟨[⟨"/d", "B", none⟩], [⟨"B", "t", 1, 1, 9⟩], []⟩ ∧
    (blobAt ⟨[⟨"/a", "B", some ⟨some 10⟩⟩, ⟨"/d", "B", none⟩],
        [⟨"B", "t", 1, 2, 0⟩], []⟩ "B").map (·.refCount) = some 2 ∧
    (blobAt ⟨[⟨"/d", "B", none⟩], [⟨"B", "t", 1, 1, 9⟩], []⟩ "B").map
        (·.refCount) = some 1 := by
  decide

theorem patched_lookup_gone {l : List FileRec} (sf : FileRec)
    (dpath : String) (hne : sf.path ≠ dpath) :
    (l.map (fun f => if f.path == sf.path then
      { f with path := dpath, attributes := none } else f)).find?
      (fun f => f.path == sf.path) = none := by
  apply List.find?_eq_none.mpr
  intro x hx
  rcases List.mem_map.mp hx with ⟨f, hf, rfl⟩
  by_cases hfp : f.path == sf.path
  · rw [if_pos hfp]
    simpa using fun hc => hne hc.symm
  · rw [if_neg hfp]
    simpa using hfp

theorem patched_lookup_dest {l : List FileRec} {sf : FileRec}
    (dpath : String) (hpw : l.Pairwise (fun a c => a.path ≠ c.path))
    (hsm : sf ∈ l) (hnod : ∀ f ∈ l, f.path ≠ dpath) :
    (l.map (fun f => if f.path == sf.path then
      { f with path := dpath, attributes := none } else f)).find?
      (fun f => f.path == dpath) = some ⟨dpath, sf.blobId, none⟩ := by
  apply find?_unique_mem
  · refine List.mem_map.mpr ⟨sf, hsm, ?_⟩
    rw [if_pos (by simp)]
  · simp
  · intro x hx hq
    rcases List.mem_map.mp hx with ⟨f, hf, rfl⟩
    by_cases hfp : f.path == sf.path
    · rw [if_pos hfp] at hq ⊢
      have hfs : f = sf := pairwise_key_inj hpw f hf sf hsm (by simpa using hfp)
      rw [hfs]
    · rw [if_neg hfp] at hq
      exact absurd (by simpa using hq) (hnod f hf)

theorem blob_patch_lookup {l : List BlobRec} {bl : BlobRec} {v : String}
    (g : BlobRec → BlobRec) (hg : ∀ x, (g x).blobId = x.blobId)
    (hfil : l.filter (fun x => x.blobId == v) = [bl]) :
    (l.map (fun x => if x.blobId == v then g x else x)).find?
      (fun x => x.blobId == v) = some (g bl) := by
  rcases mem_of_filter_singleton hfil with ⟨hbm, hbq⟩
  apply find?_unique_mem
  · exact List.mem_map.mpr ⟨bl, hbm, by rw [if_pos hbq]⟩
  · simpa [hg bl] using hbq
  · intro x hx hq
    rcases List.mem_map.mp hx with ⟨f, hf, rfl⟩
    by_cases hfq : f.blobId == v
    · have : f ∈ l.filter (fun x => x.blobId == v) :=
        List.mem_filter.mpr ⟨hf, hfq⟩
      rw [hfil] at this
      rw [List.mem_singleton.mp this, if_pos hbq]
    · rw [if_neg hfq] at hq
      exact absurd hq hfq

theorem find?_map_invariant {l : List α} {q : α → Bool} {g : α → α}
    (h : ∀ x ∈ l, q (g x) = q x ∧ (q x = true → g x = x)) :
    (l.map g).find? q = l.find? q := by
  induction l with
  | nil => rfl
  | cons x t ih =>
      rcases h x (by simp) with ⟨hq, hgx⟩
      rw [List.map_cons]
      by_cases hx : q x
      · rw [List.find?_cons_of_pos _ (by rw [hq]; exact hx),
          List.find?_cons_of_pos _ hx, hgx hx]
      · rw [List.find?_cons_of_neg _ (by rw [hq]; exact hx),
          List.find?_cons_of_neg _ hx]
        exact ih (fun z hz => h z (by simp [hz]))

/-- C4 (amended): Move semantics — for every move that passes validation
(against a unique-path state): the source and dest paths are necessarily
distinct; afterwards no file exists at the source path; the file at the
dest path is the source record repointed there with its attributes
cleared; when the move overwrote a dest file referencing a *different*
blob than the source, that blob's record is decremented by one and the
source blob's record is unchanged; and with no dest file to overwrite no
blob record changes at all.  (When the overwritten dest file referenced
the *same* blob as the source, that shared blob is decremented once for
the deleted dest reference — see the counterexample — which is the one
departure from the claim as stated.) -/
theorem move_semantics (s : St) (src : FileMetadata) (dest : Dest)
    (i : Nat) (now : Int) (s' : St) (hp : pathsUnique s)
    (hok : applyOperation s (.move src dest) i now = .ok s') :
    src.path ≠ dest.path ∧
    fileAt s' src.path = none ∧
    fileAt s' dest.path = some ⟨dest.path, src.blobId, none⟩ ∧
    (∀ d, fileAt s dest.path = some d → d.blobId ≠ src.blobId →
      (∀ bl, blobAt s d.blobId = some bl →
        blobAt s' d.blobId =
          some { bl with refCount := bl.refCount - 1, updatedAt := now }) ∧
      blobAt s' src.blobId = blobAt s src.blobId) ∧
    (fileAt s dest.path = none → s'.blobs = s.blobs) := by
  unfold applyOperation at hok
  simp only [Op.source] at hok
  rw [validateSource_eq s src i hp] at hok
  cases hsf : fileAt s src.path with
  | none =>
      rw [hsf] at hok
      exact absurd hok (by simp)
  | some sf =>
      rw [hsf] at hok
      dsimp only at hok
      by_cases hbl : sf.blobId ≠ src.blobId
      · rw [if_pos hbl] at hok
        exact absurd hok (by simp)
      · rw [if_neg hbl] at hok
        push_neg at hbl
        simp only [bind_ok] at hok
        cases hvd : validateDest s dest i with
        | error e =>
            rw [hvd] at hok
            exact absurd hok (by simp)
        | ok u =>
            rw [hvd] at hok
            simp only [bind_ok] at hok
            rcases fileAt_some hsf with ⟨hsm, hsp⟩
            unfold applyMove at hok
            rw [findUnique_files s dest.path hp] at hok
            simp only [bind_ok] at hok
            cases hd : fileAt s dest.path with
            | none =>
                rw [hd] at hok
                simp only [bind_ok] at hok
                have hne : src.path ≠ dest.path := by
                  intro hcontra
                  rw [hcontra] at hsf
                  rw [hsf] at hd
                  exact Option.noConfusion hd
                unfold patchFileAt at hok
                rw [if_pos (by rw [hsp]; exact any_of_fileAt hsf)] at hok
                have hs' : s' = ⟨s.files.map (fun f =>
                    if f.path == sf.path then
                      { f with path := dest.path, attributes := none }
                    else f), s.blobs, s.uploads⟩ := by
                  have := Except.ok.injEq .. ▸ hok
                  exact this.symm
                subst hs'
                have hd' : s.files.find? (fun f => f.path == dest.path) = none := hd
                refine ⟨hne, ?_, ?_, ?_, fun _ => rfl⟩
                · unfold fileAt
                  dsimp only
                  rw [← hsp]
                  exact patched_lookup_gone sf dest.path
                    (fun hc => hne (hsp.symm.trans hc))
                · unfold fileAt
                  dsimp only
                  rw [← hbl]
                  exact patched_lookup_dest dest.path hp hsm
                    (fun f hf hfp =>
                      (List.find?_eq_none.mp hd' f hf) (by simpa using hfp))
                · intro d hdc
                  exact Option.noConfusion hdc
            | some d =>
                rw [hd] at hok
                simp only [bind_ok] at hok
                rcases fileAt_some hd with ⟨hdm, hdp⟩
                rw [hdp] at hok
                unfold deleteFileAt at hok
                rw [if_pos (any_of_fileAt hd)] at hok
                simp only [bind_ok] at hok
                unfold decrefBlob at hok
                cases hfu : findUnique s.blobs (fun x => x.blobId == d.blobId) with
                | error e =>
                    rw [hfu] at hok
                    exact absurd hok (by simp)
                | ok ob =>
                    rw [hfu] at hok
                    simp only [bind_ok] at hok
                    have hanyfalse : sf.path = dest.path →
                        ¬((s.files.filter (fun f => !(f.path == dest.path))).any
                          (fun f => f.path == sf.path) = true) := by
                      intro hnec hcontra
                      rcases List.any_eq_true.mp hcontra with ⟨x, hx, hxq⟩
                      have hxf := List.mem_filter.mp hx
                      have : x.path = dest.path := by
                        have := hxq
                        rw [hnec] at this
                        simpa using this
                      rw [this] at hxf
                      simp at hxf
                    have hanytrue : sf.path ≠ dest.path →
                        ((s.files.filter (fun f => !(f.path == dest.path))).any
                          (fun f => f.path == sf.path) = true) := by
                      intro hnec
                      apply List.any_eq_true.mpr
                      exact ⟨sf, List.mem_filter.mpr ⟨hsm, by simpa using hnec⟩,
                        by simp⟩
                    have hfpw : (s.files.filter
                        (fun f => !(f.path == dest.path))).Pairwise
                        (fun a c => a.path ≠ c.path) :=
                      List.Pairwise.sublist (List.filter_sublist _) hp
                    have hsfmem : sf.path ≠ dest.path →
                        sf ∈ s.files.filter (fun f => !(f.path == dest.path)) :=
                      fun hnec => List.mem_filter.mpr ⟨hsm, by simpa using hnec⟩
                    have hnod : ∀ f ∈ s.files.filter
                        (fun f => !(f.path == dest.path)), f.path ≠ dest.path := by
                      intro f hf
                      have := (List.mem_filter.mp hf).2
                      simpa using this
                    cases ob with
                    | none =>
                        simp only [bind_ok] at hok
                        by_cases hnec : sf.path = dest.path
                        · exfalso
                          unfold patchFileAt at hok
                          rw [if_neg (hanyfalse hnec)] at hok
                          exact absurd hok (by simp)
                        · unfold patchFileAt at hok
                          rw [if_pos (hanytrue hnec)] at hok
                          have hs' : s' = ⟨(s.files.filter (fun f =>
                              !(f.path == dest.path))).map (fun f =>
                              if f.path == sf.path then
                                { f with path := dest.path, attributes := none }
                              else f), s.blobs, s.uploads⟩ := by
                            have := Except.ok.injEq .. ▸ hok
                            exact this.symm
                          subst hs'
                          have hfilnil : s.blobs.filter
                              (fun x => x.blobId == d.blobId) = [] :=
                            findUnique_ok_none hfu
                          refine ⟨hsp ▸ hnec, ?_, ?_, ?_, ?_⟩
                          · unfold fileAt
                            dsimp only
                            rw [← hsp]
                            exact patched_lookup_gone sf dest.path hnec
                          · unfold fileAt
                            dsimp only
                            rw [← hbl]
                            exact patched_lookup_dest dest.path hfpw
                              (hsfmem hnec) hnod
                          · intro d2 hd2 hdb2
                            have hd2d : d2 = d := by
                              simpa using hd2.symm
                            subst hd2d
                            refine ⟨?_, rfl⟩
                            intro bl hbl2
                            unfold blobAt at hbl2
                            rw [find?_eq_head?_filter, hfilnil] at hbl2
                            exact Option.noConfusion hbl2
                          · intro hcontra
                            exact Option.noConfusion hcontra
                    | some bl' =>
                        simp only [patchBlobs, bind_ok] at hok
                        by_cases hnec : sf.path = dest.path
                        · exfalso
                          unfold patchFileAt at hok
                          rw [if_neg (hanyfalse hnec)] at hok
                          exact absurd hok (by simp)
                        · unfold patchFileAt at hok
                          rw [if_pos (hanytrue hnec)] at hok
                          have hs' : s' = ⟨(s.files.filter (fun f =>
                              !(f.path == dest.path))).map (fun f =>
                              if f.path == sf.path then
                                { f with path := dest.path, attributes := none }
                              else f),
                              s.blobs.map (fun x =>
                                if x.blobId == d.blobId then
                                  { x with refCount := x.refCount - 1, updatedAt := now }
                                else x), s.uploads⟩ := by
                            have := Except.ok.injEq .. ▸ hok
                            exact this.symm
                          subst hs'
                          have hfil : s.blobs.filter
                              (fun x => x.blobId == d.blobId) = [bl'] :=
                            findUnique_ok_some hfu
                          refine ⟨hsp ▸ hnec, ?_, ?_, ?_, ?_⟩
                          · unfold fileAt
                            dsimp only
                            rw [← hsp]
                            exact patched_lookup_gone sf dest.path hnec
                          · unfold fileAt
                            dsimp only
                            rw [← hbl]
                            exact patched_lookup_dest dest.path hfpw
                              (hsfmem hnec) hnod
                          · intro d2 hd2 hdb2
                            have hd2d : d2 = d := by
                              simpa using hd2.symm
                            subst hd2d
                            constructor
                            · intro bl hbl2
                              have hblbl : bl = bl' := by
                                unfold blobAt at hbl2
                                rw [find?_eq_head?_filter, hfil] at hbl2
                                simpa using hbl2.symm
                              subst hblbl
                              unfold blobAt
                              dsimp only
                              exact blob_patch_lookup _ (fun x => rfl) hfil
                            · unfold blobAt
                              dsimp only
                              apply find?_map_invariant
                              intro x _
                              constructor
                              · by_cases hx : x.blobId == d2.blobId
                                · rw [if_pos hx]
                                · rw [if_neg hx]
                              · intro hq
                                rw [if_neg (by
                                  have : x.blobId = src.blobId := by simpa using hq
                                  rw [this]
                                  simpa using fun hc => hdb2 hc.symm)]
                          · intro hcontra
                            exact Option.noConfusion hcontra

/-- C4 witness: a concrete move of `/a` (blob `B`, with attributes) onto
an occupied `/b` referencing a different blob `C`: afterwards `/a` is
absent, `/b` carries blob `B` with attributes cleared, blob `C` is
decremented to refCount 0, and blob `B`'s record is untouched. -/
theorem move_semantics_witness :
    fileAt ⟨[⟨"/b", "B", none⟩],
        [⟨"B", "t", 1, 1, 0⟩, ⟨"C", "t", 2, 0, 5⟩], []⟩ "/a" = none ∧
    fileAt ⟨[⟨"/b", "B", none⟩],
        [⟨"B", "t", 1, 1, 0⟩, ⟨"C", "t", 2, 0, 5⟩], []⟩ "/b" =
      some ⟨"/b", "B", none⟩ ∧
    blobAt ⟨[⟨"/b", "B", none⟩],
        [⟨"B", "t", 1, 1, 0⟩, ⟨"C", "t", 2, 0, 5⟩], []⟩ "C" =
      some ⟨"C", "t", 2, 0, 5⟩ ∧
    blobAt ⟨[⟨"/b", "B", none⟩],
        [⟨"B", "t", 1, 1, 0⟩, ⟨"C", "t", 2, 0, 5⟩], []⟩ "B" =
      blobAt ⟨[⟨"/a", "B", some ⟨some 10⟩⟩, ⟨"/b", "C", none⟩],
        [⟨"B", "t", 1, 1, 0⟩, ⟨"C", "t", 2, 1, 0⟩], []⟩ "B" := by
  have h := move_semantics
    ⟨[⟨"/a", "B", some ⟨some 10⟩⟩, ⟨"/b", "C", none⟩],
      [⟨"B", "t", 1, 1, 0⟩, ⟨"C", "t", 2, 1, 0⟩], []⟩
    ⟨"/a", "B", "t", 1, none⟩ ⟨"/b", none⟩ 0 5
    ⟨[⟨"/b", "B", none⟩], [⟨"B", "t", 1, 1, 0⟩, ⟨"C", "t", 2, 0, 5⟩], []⟩
    (by decide) (by decide)
  have h4 := h.2.2.2.1 ⟨"/b", "C", none⟩ (by decide) (by decide)
  exact ⟨h.2.1, h.2.2.1, h4.1 ⟨"C", "t", 2, 1, 0⟩ (by decide), h4.2⟩

/-! ## Path-uniqueness preservation: shapes of the file table after each
writing operation -/

/-- Destructuring a successful `Except` bind. -/
theorem bind_ok_destruct {x : Except Err α} {f : α → Except Err β} {b : β}
    (h : (x >>= f) = .ok b) : ∃ a, x = .ok a ∧ f a = .ok b := by
  cases x with
  | error e => simp at h
  | ok a => exact ⟨a, rfl, by simpa using h⟩

/-- A successful `patchFileAt` maps the update over the file table. -/
theorem patchFileAt_ok {s : St} {p : String} {upd : FileRec → FileRec} {s' : St}
    (h : patchFileAt s p upd = .ok s') :
    s' = { s with files := s.files.map (fun f => if f.path == p then upd f else f) } := by
  unfold patchFileAt at h
  split at h
  · exact (Except.ok.injEq .. ▸ h).symm
  · exact absurd h (by simp)

/-- A successful `deleteFileAt` filters the file table. -/
theorem deleteFileAt_ok {s : St} {p : String} {s' : St}
    (h : deleteFileAt s p = .ok s') :
    s' = { s with files := s.files.filter (fun f => !(f.path == p)) } := by
  unfold deleteFileAt at h
  split at h
  · exact (Except.ok.injEq .. ▸ h).symm
  · exact absurd h (by simp)

/-- `decrefBlob` never touches the file or upload tables. -/
theorem decrefBlob_frame {s : St} {b : String} {now : Int} {s' : St}
    (h : decrefBlob s b now = .ok s') :
    s'.files = s.files ∧ s'.uploads = s.uploads := by
  unfold decrefBlob at h
  rcases bind_ok_destruct h with ⟨ob, _, h2⟩
  cases ob with
  | none =>
      injection h2 with h2
      subst h2
      exact ⟨rfl, rfl⟩
  | some bl =>
      injection h2 with h2
      subst h2
      exact ⟨rfl, rfl⟩

/-- A path-preserving per-record rewrite keeps paths pairwise distinct. -/
theorem pathsUnique_map_preserving {l : List FileRec} {g : FileRec → FileRec}
    (hg : ∀ x, (g x).path = x.path)
    (h : l.Pairwise (fun a c => a.path ≠ c.path)) :
    (l.map g).Pairwise (fun a c => a.path ≠ c.path) := by
  rw [List.pairwise_map]
  exact h.imp (fun hac => by simp only [hg]; exact hac)

/-- The move repoint keeps paths pairwise distinct when the dest path is
absent from the list. -/
theorem pathsUnique_move_patch {l : List FileRec} (spath dpath : String)
    (h : l.Pairwise (fun a c => a.path ≠ c.path))
    (hno : ∀ f ∈ l, f.path ≠ dpath) :
    (l.map (fun f => if f.path == spath then
      { f with path := dpath, attributes := none } else f)).Pairwise
      (fun a c => a.path ≠ c.path) := by
  rw [List.pairwise_map]
  apply List.Pairwise.imp_of_mem ?_ h
  intro a c ha hc hac
  by_cases hasp : a.path == spath
  · rw [if_pos hasp]
    by_cases hcsp : c.path == spath
    · exact absurd ((eq_of_beq hasp).trans (eq_of_beq hcsp).symm) hac
    · rw [if_neg hcsp]
      exact fun hcd => hno c hc (by simpa using hcd.symm)
  · rw [if_neg hasp]
    by_cases hcsp : c.path == spath
    · rw [if_pos hcsp]
      exact hno a ha
    · rw [if_neg hcsp]
      exact hac

/-- Appending a record at a fresh path keeps paths pairwise distinct. -/
theorem pathsUnique_append {l : List FileRec} {r : FileRec}
    (h : l.Pairwise (fun a c => a.path ≠ c.path))
    (hno : ∀ f ∈ l, f.path ≠ r.path) :
    (l ++ [r]).Pairwise (fun a c => a.path ≠ c.path) := by
  rw [List.pairwise_append]
  refine ⟨h, by simp, ?_⟩
  intro a ha b hb
  rw [List.mem_singleton.mp hb]
  exact hno a ha

/-- The file-table effect of a successful `applyMove`: the repoint mapped
over a sublist of the files (all of them, or all of them off the dest
path), no element of which sits on the dest path. -/
theorem applyMove_files_shape {s : St} {sf : FileRec} {dest : Dest}
    {now : Int} {s' : St} (h : applyMove s sf dest now = .ok s') :
    ∃ l, List.Sublist l s.files ∧ (∀ f ∈ l, f.path ≠ dest.path) ∧
      s'.files = l.map (fun f => if f.path == sf.path then
        { f with path := dest.path, attributes := none } else f) := by
  unfold applyMove at h
  rcases bind_ok_destruct h with ⟨ob, hfu, h2⟩
  cases ob with
  | none =>
      dsimp only [bind_ok] at h2
      have hsp := patchFileAt_ok h2
      subst hsp
      refine ⟨s.files, List.Sublist.refl _, ?_, rfl⟩
      intro f hf
      have := List.filter_eq_nil_iff.mp (findUnique_ok_none hfu) f hf
      simpa using this
  | some d =>
      dsimp only at h2
      rcases mem_of_filter_singleton (findUnique_ok_some hfu) with ⟨hdm, hdq⟩
      have hdp : d.path = dest.path := by simpa using hdq
      rcases bind_ok_destruct h2 with ⟨s2, hdel, h3⟩
      rcases bind_ok_destruct h3 with ⟨s3, hdec, hpatch⟩
      have hsp := patchFileAt_ok hpatch
      subst hsp
      have hs2 := deleteFileAt_ok hdel
      subst hs2
      refine ⟨s.files.filter (fun f => !(f.path == d.path)),
        List.filter_sublist _, ?_, ?_⟩
      · intro f hf
        have := (List.mem_filter.mp hf).2
        rw [← hdp]
        simpa using this
      · rw [(decrefBlob_frame hdec).1]

/-- The file-table effect of a successful `applyCopy`: either a
path-preserving patch of the table, or an append at the previously free
dest path. -/
theorem applyCopy_files_shape {s : St} {sf : FileRec} {dest : Dest}
    {now : Int} {s' : St} (h : applyCopy s sf dest now = .ok s') :
    (∃ g : FileRec → FileRec, (∀ x, (g x).path = x.path) ∧
      s'.files = s.files.map g) ∨
    ((∀ x ∈ s.files, x.path ≠ dest.path) ∧
      s'.files = s.files ++ [⟨dest.path, sf.blobId, none⟩]) := by
  unfold applyCopy at h
  rcases bind_ok_destruct h with ⟨obl, hfub, h2⟩
  cases obl with
  | some bl =>
      rcases bind_ok_destruct h2 with ⟨obf, hfuf, h3⟩
      cases obf with
      | some d =>
          rcases bind_ok_destruct h3 with ⟨s2, hpatch, hdec⟩
          have hsp := patchFileAt_ok hpatch
          subst hsp
          left
          refine ⟨fun x => if x.path == d.path then
            { x with blobId := sf.blobId, attributes := none } else x,
            fun x => by dsimp only; split <;> rfl, ?_⟩
          rw [(decrefBlob_frame hdec).1]
          rfl
      | none =>
          injection h3 with h3
          subst h3
          right
          refine ⟨?_, rfl⟩
          intro x hx
          have hnil : s.files.filter (fun fr => fr.path == dest.path) = [] :=
            findUnique_ok_none hfuf
          have := List.filter_eq_nil_iff.mp hnil x hx
          simpa using this
  | none =>
      rcases bind_ok_destruct h2 with ⟨obf, hfuf, h3⟩
      cases obf with
      | some d =>
          rcases bind_ok_destruct h3 with ⟨s2, hpatch, hdec⟩
          have hsp := patchFileAt_ok hpatch
          subst hsp
          left
          refine ⟨fun x => if x.path == d.path then
            { x with blobId := sf.blobId, attributes := none } else x,
            fun x => by dsimp only; split <;> rfl, ?_⟩
          rw [(decrefBlob_frame hdec).1]
      | none =>
          injection h3 with h3
          subst h3
          right
          refine ⟨?_, rfl⟩
          intro x hx
          have hnil : s.files.filter (fun fr => fr.path == dest.path) = [] :=
            findUnique_ok_none hfuf
          have := List.filter_eq_nil_iff.mp hnil x hx
          simpa using this

/-- The file-table effect of a successful `applySetAttributes`: a
path-preserving patch; the blob and upload tables are untouched. -/
theorem applySetAttributes_files_shape {s : St} {sf : FileRec}
    {attrs : SetAttributesInput} {s' : St}
    (h : applySetAttributes s sf attrs = .ok s') :
    ∃ g : FileRec → FileRec, (∀ x, (g x).path = x.path) ∧
      s'.files = s.files.map g ∧ s'.blobs = s.blobs ∧ s'.uploads = s.uploads := by
  unfold applySetAttributes at h
  have hsp := patchFileAt_ok h
  subst hsp
  refine ⟨_, ?_, rfl, rfl, rfl⟩
  intro x
  split <;> rfl

/-- The file-table effect of a successful `deleteFileAndDecrefBlob`. -/
theorem deleteFileAndDecrefBlob_files_shape {s : St} {p b : String}
    {now : Int} {s' : St} (h : deleteFileAndDecrefBlob s p b now = .ok s') :
    s'.files = s.files.filter (fun f => !(f.path == p)) := by
  unfold deleteFileAndDecrefBlob at h
  rcases bind_ok_destruct h with ⟨s1, hdel, hdec⟩
  have h1 := deleteFileAt_ok hdel
  subst h1
  rw [(decrefBlob_frame hdec).1]

/-- The file-table effect of a successful `commitOne`: either a
path-preserving repoint of the existing file, or an append at the
previously free path. -/
theorem commitOne_files_shape {s : St} {m : List (String × BlobMetadata)}
    {f : FileCommit} {now : Int} {s' : St}
    (h : commitOne s m f now = .ok s') :
    (∃ g : FileRec → FileRec, (∀ x, (g x).path = x.path) ∧
      s'.files = s.files.map g) ∨
    ((∀ x ∈ s.files, x.path ≠ f.path) ∧
      s'.files = s.files ++ [⟨f.path, f.blobId, f.attributes⟩]) := by
  unfold commitOne at h
  cases hmg : mapGet m f.blobId with
  | none =>
      rw [hmg] at h
      exact absurd h (by simp)
  | some md =>
      rw [hmg] at h
      simp only [pure_eq_ok, bind_ok] at h
      rcases bind_ok_destruct h with ⟨ef?, hfu, h3⟩
      cases ef? with
      | some ef =>
          dsimp only at h3
          rcases bind_ok_destruct h3 with ⟨sp, hpatch, h4⟩
          rcases bind_ok_destruct h4 with ⟨s2, hdec, h5⟩
          rcases bind_ok_destruct h5 with ⟨up?, hfuu, h6⟩
          have hfiles' : s'.files = s2.files := by
            cases up? with
            | some u =>
                injection h6 with h6
                subst h6
                rfl
            | none =>
                injection h6 with h6
                subst h6
                rfl
          have hsp := patchFileAt_ok hpatch
          subst hsp
          left
          refine ⟨fun x => if x.path == ef.path then
            { x with blobId := f.blobId, attributes := f.attributes } else x,
            fun x => by dsimp only; split <;> rfl, ?_⟩
          rw [hfiles', (decrefBlob_frame hdec).1]
          rfl
      | none =>
          dsimp only [bind_ok] at h3
          rcases bind_ok_destruct h3 with ⟨up?, hfuu, h4⟩
          have hfiles' : s'.files =
              (insertFile (insertBlob s ⟨f.blobId, md.contentType, md.size, 1, now⟩)
                ⟨f.path, f.blobId, f.attributes⟩).files := by
            cases up? with
            | some u =>
                injection h4 with h4
                subst h4
                rfl
            | none =>
                injection h4 with h4
                subst h4
                rfl
          right
          constructor
          · intro x hx
            have hnil : s.files.filter (fun fr => fr.path == f.path) = [] :=
              findUnique_ok_none hfu
            have := List.filter_eq_nil_iff.mp hnil x hx
            simpa using this
          · rw [hfiles']
            rfl

/-- The file-table effect of a successful `restore`: an unconditional
append of the re-linked record — there is no path check. -/
theorem restore_files_shape {s : St} {b p : String} {now : Int} {s' : St}
    (h : restore s b p now = .ok s') :
    s'.files = s.files ++ [⟨p, b, none⟩] := by
  unfold restore at h
  rcases bind_ok_destruct h with ⟨ob, hfu, h2⟩
  cases ob with
  | none => exact absurd h2 (by simp)
  | some bl =>
      injection h2 with h2
      subst h2
      rfl

/-- `commitOne` preserves path uniqueness. -/
theorem pathsUnique_commitOne {s s' : St} {m : List (String × BlobMetadata)}
    {f : FileCommit} {now : Int} (hp : pathsUnique s)
    (h : commitOne s m f now = .ok s') : pathsUnique s' := by
  rcases commitOne_files_shape h with ⟨g, hg, hfiles⟩ | ⟨hno, hfiles⟩
  · unfold pathsUnique
    rw [hfiles]
    exact pathsUnique_map_preserving hg hp
  · unfold pathsUnique
    rw [hfiles]
    exact pathsUnique_append hp hno

/-- The apply loop of `commitFiles` preserves path uniqueness. -/
theorem commitLoop_pathsUnique {m : List (String × BlobMetadata)} {now : Int} :
    ∀ (fs : List FileCommit) (s s' : St), pathsUnique s →
      fs.foldlM (fun st f => commitOne st m f now) s = .ok s' →
      pathsUnique s' := by
  intro fs
  induction fs with
  | nil =>
      intro s s' hp h
      injection h with h
      subst h
      exact hp
  | cons f rest ih =>
      intro s s' hp h
      rw [List.foldlM_cons] at h
      rcases bind_ok_destruct h with ⟨s1, hone, hrest⟩
      exact ih s1 s' (pathsUnique_commitOne hp hone) hrest

/-- C6 counterexample: `restore` inserts its file record with no path
check, so restoring a blob to an occupied path yields two file records at
that path. -/
theorem restore_duplicate_path_cx :
    pathsUnique ⟨[⟨"/a", "B1", none⟩],
      [⟨"B1", "t", 1, 1, 0⟩, ⟨"B2", "t", 1, 0, 0⟩], []⟩ ∧
    restore ⟨[⟨"/a", "B1", none⟩],
      [⟨"B1", "t", 1, 1, 0⟩, ⟨"B2", "t", 1, 0, 0⟩], []⟩ "B2" "/a" 7 =
      .ok ⟨[⟨"/a", "B1", none⟩, ⟨"/a", "B2", none⟩],
        [⟨"B1", "t", 1, 1, 0⟩, ⟨"B2", "t", 1, 1, 7⟩], []⟩ ∧
    ¬ pathsUnique ⟨[⟨"/a", "B1", none⟩, ⟨"/a", "B2", none⟩],
      [⟨"B1", "t", 1, 1, 0⟩, ⟨"B2", "t", 1, 1, 7⟩], []⟩ := by decide

/-- C6 (amended): starting from a state with at most one file record per
distinct path, `commitFiles` and every transact operation (`move`,
`copy`, `delete`, `setAttributes`) leave at most one file record per
distinct path; the admin `restore` performs no path check and preserves
the property only when no file already occupies the target path. -/
theorem path_uniqueness_preserved (s s' : St) (hp : pathsUnique s) :
    (∀ fc now, commitFiles fc s now = .ok s' → pathsUnique s') ∧
    (∀ op i now, applyOperation s op i now = .ok s' → pathsUnique s') ∧
    (∀ b p now, fileAt s p = none → restore s b p now = .ok s' →
      pathsUnique s') := by
  refine ⟨?_, ?_, ?_⟩
  · intro fc now h
    unfold commitFiles at h
    split at h
    · injection h with h
      subst h
      exact hp
    · rcases bind_ok_destruct h with ⟨m, hm, h2⟩
      rcases bind_ok_destruct h2 with ⟨u1, hchk, h3⟩
      rcases bind_ok_destruct h3 with ⟨u2, hcas, h4⟩
      exact commitLoop_pathsUnique fc s s' hp h4
  · intro op i now h
    unfold applyOperation at h
    rcases bind_ok_destruct h with ⟨sf, hvs, h2⟩
    cases op with
    | move src dest =>
        rcases bind_ok_destruct h2 with ⟨u, hvd, hmv⟩
        rcases applyMove_files_shape hmv with ⟨l, hsub, hno, hfiles⟩
        unfold pathsUnique
        rw [hfiles]
        exact pathsUnique_move_patch sf.path dest.path
          (List.Pairwise.sublist hsub hp) hno
    | copy src dest =>
        rcases bind_ok_destruct h2 with ⟨u, hvd, hcp⟩
        rcases applyCopy_files_shape hcp with ⟨g, hg, hfiles⟩ | ⟨hno, hfiles⟩
        · unfold pathsUnique
          rw [hfiles]
          exact pathsUnique_map_preserving hg hp
        · unfold pathsUnique
          rw [hfiles]
          exact pathsUnique_append hp hno
    | delete src =>
        have hfiles := deleteFileAndDecrefBlob_files_shape h2
        unfold pathsUnique
        rw [hfiles]
        exact List.Pairwise.sublist (List.filter_sublist _) hp
    | setAttributes src attrs =>
        rcases applySetAttributes_files_shape h2 with ⟨g, hg, hfiles, _, _⟩
        unfold pathsUnique
        rw [hfiles]
        exact pathsUnique_map_preserving hg hp
  · intro b p now hfree h
    have hfiles := restore_files_shape h
    unfold pathsUnique
    rw [hfiles]
    refine pathsUnique_append hp ?_
    intro f hf
    exact fun hc => (List.find?_eq_none.mp hfree f hf) (by simpa using hc)

/-- C6 witness: path uniqueness after a concrete restore of blob `B` onto
the free path `/a`. -/
theorem path_uniqueness_preserved_witness :
    pathsUnique ⟨[⟨"/a", "B", none⟩], [⟨"B", "t", 1, 1, 3⟩], []⟩ :=
  (path_uniqueness_preserved ⟨[], [⟨"B", "t", 1, 0, 0⟩], []⟩
      ⟨[⟨"/a", "B", none⟩], [⟨"B", "t", 1, 1, 3⟩], []⟩ (by decide)).2.2
    "B" "/a" 3 (by decide) (by decide)

/-! ## Refcount conservation: the invariant across call sequences -/

/-- A failed unique lookup means no element satisfies the query. -/
theorem findUnique_ok_none_forall {l : List α} {q : α → Bool}
    (h : findUnique l q = .ok none) : ∀ x ∈ l, q x = false := by
  intro x hx
  have := List.filter_eq_nil_iff.mp (findUnique_ok_none h) x hx
  simpa using this

/-- Reference counts are invariant under blobId-preserving rewrites of
the file table. -/
theorem countRefs_map_preserving {l : List FileRec} {g : FileRec → FileRec}
    (hg : ∀ x ∈ l, (g x).blobId = x.blobId) (v : String) :
    countRefs (l.map g) v = countRefs l v := by
  unfold countRefs
  rw [List.countP_map]
  exact List.countP_congr (fun a ha => by
    show ((g a).blobId == v) = true ↔ (a.blobId == v) = true
    rw [hg a ha])

/-- Reference counts over a cons cell. -/
theorem countRefs_cons (f : FileRec) (l : List FileRec) (v : String) :
    countRefs (f :: l) v = (if f.blobId == v then 1 else 0) + countRefs l v := by
  unfold countRefs
  rw [List.countP_cons]
  by_cases h : f.blobId == v
  · simp only [if_pos h]
    omega
  · simp only [if_neg h]
    omega

/-- Reference counts over an append. -/
theorem countRefs_append (l1 l2 : List FileRec) (v : String) :
    countRefs (l1 ++ l2) v = countRefs l1 v + countRefs l2 v := by
  unfold countRefs
  exact List.countP_append _ _ _

/-- A table none of whose records carries `v` contributes no references. -/
theorem countRefs_eq_zero {l : List FileRec} {v : String}
    (h : ∀ x ∈ l, x.blobId ≠ v) : countRefs l v = 0 := by
  unfold countRefs
  exact List.countP_eq_zero.mpr (fun a ha => by simpa using h a ha)

/-- Permutation invariance of reference counts. -/
theorem countRefs_perm {l l' : List FileRec} (h : List.Perm l l')
    (v : String) : countRefs l v = countRefs l' v := h.countP_eq _

/-- Key-distinctness survives appending a record with a fresh key. -/
theorem pairwise_key_append {key : α → String} {l : List α} {r : α}
    (h : l.Pairwise (fun a c => key a ≠ key c))
    (hno : ∀ x ∈ l, key x ≠ key r) :
    (l ++ [r]).Pairwise (fun a c => key a ≠ key c) := by
  rw [List.pairwise_append]
  refine ⟨h, by simp, ?_⟩
  intro a ha b hb
  rw [List.mem_singleton.mp hb]
  exact hno a ha

/-- Key-distinctness survives key-preserving rewrites. -/
theorem pairwise_key_map {key : α → String} {l : List α} {g : α → α}
    (hg : ∀ x, key (g x) = key x)
    (h : l.Pairwise (fun a c => key a ≠ key c)) :
    (l.map g).Pairwise (fun a c => key a ≠ key c) := by
  rw [List.pairwise_map]
  exact h.imp (fun hac => by simp only [hg]; exact hac)

/-- The upload-freshness clause transfers along blobId covers. -/
theorem uploadsFresh_of_covers {s s' : St}
    (hup : ∀ u ∈ s'.uploads, u ∈ s.uploads)
    (hbl : ∀ x ∈ s'.blobs, ∃ y ∈ s.blobs, x.blobId = y.blobId)
    (hfl : ∀ f ∈ s'.files, ∃ y ∈ s.files, f.blobId = y.blobId)
    (hf : uploadsFresh s) : uploadsFresh s' := by
  intro u hu
  rcases hf u (hup u hu) with ⟨hb, hfi⟩
  refine ⟨?_, ?_⟩
  · intro x hx
    rcases hbl x hx with ⟨y, hy, hxy⟩
    rw [hxy]
    exact hb y hy
  · intro f hf2
    rcases hfl f hf2 with ⟨y, hy, hxy⟩
    rw [hxy]
    exact hfi y hy

/-- The two possible outcomes of a successful `decrefBlob` on the blob
table: untouched (no record carries the blobId), or the pointwise
decrement of every record carrying it. -/
theorem decrefBlob_ok_shape {s : St} {b : String} {now : Int} {s' : St}
    (h : decrefBlob s b now = .ok s') :
    (s'.blobs = s.blobs ∧ ∀ x ∈ s.blobs, x.blobId ≠ b) ∨
    s'.blobs = s.blobs.map (fun x => if x.blobId == b then
      { x with refCount := x.refCount - 1, updatedAt := now } else x) := by
  unfold decrefBlob at h
  rcases bind_ok_destruct h with ⟨ob, hfu, h2⟩
  cases ob with
  | none =>
      injection h2 with h2
      subst h2
      left
      refine ⟨rfl, ?_⟩
      intro x hx hxb
      have := findUnique_ok_none_forall hfu x hx
      simp [hxb] at this
  | some bl =>
      injection h2 with h2
      subst h2
      right
      rfl

/-- Pointwise accounting: if the new file table's count of every blobId
differs from the old by `δ`, and every new blob record stems from an old
one with the matching `δ` adjustment to its refCount, conservation is
preserved. -/
theorem refcountOk_delta {s : St} {files' : List FileRec}
    {blobs' : List BlobRec} (δ : String → Int) (hrc : refcountOk s)
    (hcount : ∀ v, (countRefs files' v : Int) =
      (countRefs s.files v : Int) + δ v)
    (hblobs : ∀ x ∈ blobs', ∃ y ∈ s.blobs, x.blobId = y.blobId ∧
      x.refCount = y.refCount + δ y.blobId) :
    ∀ x ∈ blobs', x.refCount = (countRefs files' x.blobId : Int) := by
  intro x hx
  rcases hblobs x hx with ⟨y, hy, hid, hrcx⟩
  rw [hrcx, hrc y hy, hid, ← hcount y.blobId]

/-- The pointwise-decrement patch realizes the `−1` delta. -/
theorem blobs_dec_delta (blobs : List BlobRec) (b : String) (now : Int) :
    ∀ x ∈ blobs.map (fun x => if x.blobId == b then
      { x with refCount := x.refCount - 1, updatedAt := now } else x),
      ∃ y ∈ blobs, x.blobId = y.blobId ∧
        x.refCount = y.refCount + (if b = y.blobId then -1 else 0) := by
  intro x hx
  rcases List.mem_map.mp hx with ⟨y, hy, rfl⟩
  refine ⟨y, hy, ?_, ?_⟩
  · split <;> rfl
  · by_cases hyb : y.blobId == b
    · rw [if_pos hyb, if_pos (eq_of_beq hyb).symm]
      dsimp only
      omega
    · rw [if_neg hyb,
        if_neg (fun hc => (by simpa using hyb : ¬(y.blobId = b)) hc.symm)]
      omega

/-- The pointwise-increment patch realizes the `+1` delta. -/
theorem blobs_inc_delta (blobs : List BlobRec) (b : String) (now : Int) :
    ∀ x ∈ blobs.map (fun x => if x.blobId == b then
      { x with refCount := x.refCount + 1, updatedAt := now } else x),
      ∃ y ∈ blobs, x.blobId = y.blobId ∧
        x.refCount = y.refCount + (if b = y.blobId then 1 else 0) := by
  intro x hx
  rcases List.mem_map.mp hx with ⟨y, hy, rfl⟩
  refine ⟨y, hy, ?_, ?_⟩
  · split <;> rfl
  · by_cases hyb : y.blobId == b
    · rw [if_pos hyb, if_pos (eq_of_beq hyb).symm]
    · rw [if_neg hyb,
        if_neg (fun hc => (by simpa using hyb : ¬(y.blobId = b)) hc.symm)]
      omega

/-- An untouched blob table realizes the zero delta off a blobId no
record carries. -/
theorem blobs_id_delta (blobs : List BlobRec) (b : String)
    (hnob : ∀ x ∈ blobs, x.blobId ≠ b) :
    ∀ x ∈ blobs, ∃ y ∈ blobs, x.blobId = y.blobId ∧
      x.refCount = y.refCount + (if b = y.blobId then -1 else 0) := by
  intro x hx
  refine ⟨x, hx, rfl, ?_⟩
  rw [if_neg (fun hc => hnob x hx hc.symm)]
  omega

/-- `applySetAttributes` preserves the state invariant. -/
theorem inv_applySetAttributes {s : St} {sf : FileRec}
    {attrs : SetAttributesInput} {s' : St} (hInv : Inv s)
    (h : applySetAttributes s sf attrs = .ok s') : Inv s' := by
  obtain ⟨hp, hbu, hrc, huf⟩ := hInv
  unfold applySetAttributes at h
  have hsp := patchFileAt_ok h
  subst hsp
  refine ⟨?_, hbu, ?_, ?_⟩
  · exact pairwise_key_map (fun x => by split <;> rfl) hp
  · intro bl hbl
    rw [hrc bl hbl]
    exact congrArg (fun n : Nat => (n : Int))
      (countRefs_map_preserving (fun x hx => by split <;> rfl)
        bl.blobId).symm
  · refine uploadsFresh_of_covers ?_ ?_ ?_ huf
    · exact fun u hu => hu
    · exact fun x hx => ⟨x, hx, rfl⟩
    · intro x hx
      rcases List.mem_map.mp hx with ⟨y, hy, rfl⟩
      exact ⟨y, hy, by split <;> rfl⟩

/-- The transact `delete` operation preserves the state invariant. -/
theorem inv_deleteOp {s : St} {sf : FileRec} {now : Int} {s' : St}
    (hInv : Inv s) (hfa : fileAt s sf.path = some sf)
    (h : deleteFileAndDecrefBlob s sf.path sf.blobId now = .ok s') :
    Inv s' := by
  obtain ⟨hp, hbu, hrc, huf⟩ := hInv
  have hfil : s.files.filter (fun f => f.path == sf.path) = [sf] :=
    findUnique_ok_some (by rw [findUnique_files s sf.path hp, hfa])
  have hperm : List.Perm s.files
      (sf :: s.files.filter (fun f => !(f.path == sf.path))) :=
    filter_singleton_perm hfil
  unfold deleteFileAndDecrefBlob at h
  rcases bind_ok_destruct h with ⟨s2, hdel, hdec⟩
  have hs2 := deleteFileAt_ok hdel
  subst hs2
  have hframe := decrefBlob_frame hdec
  have hfe : s'.files = s.files.filter (fun f => !(f.path == sf.path)) :=
    hframe.1
  have hue : s'.uploads = s.uploads := hframe.2
  have hcount : ∀ v,
      (countRefs (s.files.filter (fun f => !(f.path == sf.path))) v : Int) =
      (countRefs s.files v : Int) + (if sf.blobId = v then -1 else 0) := by
    intro v
    have h2 := (countRefs_perm hperm v).trans (countRefs_cons sf _ v)
    by_cases hv : sf.blobId = v
    · rw [if_pos (by simpa using hv)] at h2
      rw [if_pos hv]
      omega
    · rw [if_neg (by simpa using hv)] at h2
      rw [if_neg hv]
      omega
  rcases decrefBlob_ok_shape hdec with ⟨hbeq, hnob⟩ | hbmap
  · have hbeq' : s'.blobs = s.blobs := hbeq
    have hnob' : ∀ x ∈ s.blobs, x.blobId ≠ sf.blobId := hnob
    refine ⟨?_, ?_, ?_, ?_⟩
    · unfold pathsUnique
      rw [hfe]
      exact List.Pairwise.sublist (List.filter_sublist _) hp
    · unfold blobsUnique
      rw [hbeq']
      exact hbu
    · intro bl hbl
      rw [hfe]
      rw [hbeq'] at hbl
      exact refcountOk_delta _ hrc hcount
        (blobs_id_delta s.blobs sf.blobId hnob') bl hbl
    · refine uploadsFresh_of_covers ?_ ?_ ?_ huf
      · rw [hue]
        exact fun u hu => hu
      · rw [hbeq']
        exact fun x hx => ⟨x, hx, rfl⟩
      · rw [hfe]
        exact fun x hx => ⟨x, List.mem_of_mem_filter hx, rfl⟩
  · have hbmap' : s'.blobs = s.blobs.map (fun x =>
        if x.blobId == sf.blobId then
          { x with refCount := x.refCount - 1, updatedAt := now }
        else x) := hbmap
    refine ⟨?_, ?_, ?_, ?_⟩
    · unfold pathsUnique
      rw [hfe]
      exact List.Pairwise.sublist (List.filter_sublist _) hp
    · unfold blobsUnique
      rw [hbmap']
      exact pairwise_key_map (fun x => by split <;> rfl) hbu
    · intro bl hbl
      rw [hfe]
      rw [hbmap'] at hbl
      exact refcountOk_delta _ hrc hcount
        (blobs_dec_delta s.blobs sf.blobId now) bl hbl
    · refine uploadsFresh_of_covers ?_ ?_ ?_ huf
      · rw [hue]
        exact fun u hu => hu
      · rw [hbmap']
        intro x hx
        rcases List.mem_map.mp hx with ⟨y, hy, rfl⟩
        exact ⟨y, hy, by split <;> rfl⟩
      · rw [hfe]
        exact fun x hx => ⟨x, List.mem_of_mem_filter hx, rfl⟩

/-- The transact `move` apply section preserves the state invariant. -/
theorem inv_applyMove {s : St} {sf : FileRec} {dest : Dest} {now : Int}
    {s' : St} (hInv : Inv s) (h : applyMove s sf dest now = .ok s') :
    Inv s' := by
  obtain ⟨hp, hbu, hrc, huf⟩ := hInv
  unfold applyMove at h
  rcases bind_ok_destruct h with ⟨ob, hfu, h2⟩
  cases ob with
  | none =>
      dsimp only [bind_ok] at h2
      have hsp := patchFileAt_ok h2
      subst hsp
      refine ⟨?_, hbu, ?_, ?_⟩
      · have hno : ∀ f ∈ s.files, f.path ≠ dest.path := by
          intro f hf hc
          have := findUnique_ok_none_forall hfu f hf
          simp [hc] at this
        exact pathsUnique_move_patch sf.path dest.path hp hno
      · intro bl hbl
        rw [hrc bl hbl]
        exact congrArg (fun n : Nat => (n : Int))
          (countRefs_map_preserving (fun x hx => by split <;> rfl)
            bl.blobId).symm
      · refine uploadsFresh_of_covers ?_ ?_ ?_ huf
        · exact fun u hu => hu
        · exact fun x hx => ⟨x, hx, rfl⟩
        · intro x hx
          rcases List.mem_map.mp hx with ⟨y, hy, rfl⟩
          exact ⟨y, hy, by split <;> rfl⟩
  | some d =>
      dsimp only at h2
      rcases mem_of_filter_singleton (findUnique_ok_some hfu) with ⟨hdm, hdq⟩
      have hdp : d.path = dest.path := by simpa using hdq
      have hfil : s.files.filter (fun f => f.path == d.path) = [d] := by
        rw [hdp]
        exact findUnique_ok_some hfu
      have hperm : List.Perm s.files
          (d :: s.files.filter (fun f => !(f.path == d.path))) :=
        filter_singleton_perm hfil
      rcases bind_ok_destruct h2 with ⟨s2, hdel, h3⟩
      rcases bind_ok_destruct h3 with ⟨s3, hdec, hpatch⟩
      have hsp := patchFileAt_ok hpatch
      subst hsp
      have hs2 := deleteFileAt_ok hdel
      subst hs2
      have hframe := decrefBlob_frame hdec
      have hf3 : s3.files = s.files.filter (fun f => !(f.path == d.path)) :=
        hframe.1
      have hu3 : s3.uploads = s.uploads := hframe.2
      have hcount : ∀ v, (countRefs (s3.files.map (fun f =>
          if f.path == sf.path then
            { f with path := dest.path, attributes := none } else f)) v : Int) =
          (countRefs s.files v : Int) + (if d.blobId = v then -1 else 0) := by
        intro v
        rw [countRefs_map_preserving (fun x hx => by split <;> rfl) v, hf3]
        have h2c := (countRefs_perm hperm v).trans (countRefs_cons d _ v)
        by_cases hv : d.blobId = v
        · rw [if_pos (by simpa using hv)] at h2c
          rw [if_pos hv]
          omega
        · rw [if_neg (by simpa using hv)] at h2c
          rw [if_neg hv]
          omega
      have hfcover : ∀ x ∈ s3.files.map (fun f =>
          if f.path == sf.path then
            { f with path := dest.path, attributes := none } else f),
          ∃ y ∈ s.files, x.blobId = y.blobId := by
        intro x hx
        rcases List.mem_map.mp hx with ⟨y, hy, rfl⟩
        rw [hf3] at hy
        exact ⟨y, List.mem_of_mem_filter hy, by split <;> rfl⟩
      have hpaths : (s3.files.map (fun f =>
          if f.path == sf.path then
            { f with path := dest.path, attributes := none } else f)).Pairwise
          (fun a c => a.path ≠ c.path) := by
        rw [hf3]
        refine pathsUnique_move_patch sf.path dest.path
          (List.Pairwise.sublist (List.filter_sublist _) hp) ?_
        intro f hf
        have := (List.mem_filter.mp hf).2
        rw [← hdp]
        simpa using this
      rcases decrefBlob_ok_shape hdec with ⟨hbeq, hnob⟩ | hbmap
      · have hbeq' : s3.blobs = s.blobs := hbeq
        have hnob' : ∀ x ∈ s.blobs, x.blobId ≠ d.blobId := hnob
        refine ⟨?_, ?_, ?_, ?_⟩
        · exact hpaths
        · unfold blobsUnique
          rw [hbeq']
          exact hbu
        · intro bl hbl
          have hbl' : bl ∈ s.blobs := hbeq' ▸ hbl
          exact refcountOk_delta _ hrc hcount
            (blobs_id_delta s.blobs d.blobId hnob') bl hbl'
        · refine uploadsFresh_of_covers ?_ ?_ ?_ huf
          · intro u hu
            exact hu3 ▸ hu
          · intro x hx
            exact ⟨x, hbeq' ▸ hx, rfl⟩
          · exact hfcover
      · have hbmap' : s3.blobs = s.blobs.map (fun x =>
            if x.blobId == d.blobId then
              { x with refCount := x.refCount - 1, updatedAt := now }
            else x) := hbmap
        refine ⟨?_, ?_, ?_, ?_⟩
        · exact hpaths
        · unfold blobsUnique
          rw [hbmap']
          exact pairwise_key_map (fun x => by split <;> rfl) hbu
        · intro bl hbl
          have hbl' : bl ∈ s.blobs.map (fun x =>
              if x.blobId == d.blobId then
                { x with refCount := x.refCount - 1, updatedAt := now }
              else x) := hbmap' ▸ hbl
          exact refcountOk_delta _ hrc hcount
            (blobs_dec_delta s.blobs d.blobId now) bl hbl'
        · refine uploadsFresh_of_covers ?_ ?_ ?_ huf
          · intro u hu
            exact hu3 ▸ hu
          · intro x hx
            have hx' : x ∈ s.blobs.map (fun x =>
                if x.blobId == d.blobId then
                  { x with refCount := x.refCount - 1, updatedAt := now }
                else x) := hbmap' ▸ hx
            rcases List.mem_map.mp hx' with ⟨y, hy, rfl⟩
            exact ⟨y, hy, by split <;> rfl⟩
          · exact hfcover

/-- The dest-then-apply tail of `applyCopy`, abstracted over the
(possibly increment-patched) intermediate state `s1`. -/
theorem inv_applyCopy_tail (s1 : St) {s s' : St} {sf : FileRec} {dest : Dest}
    {now : Int} (hp : pathsUnique s) (hrc : refcountOk s)
    (huf : uploadsFresh s) (hsf : sf ∈ s.files)
    (hf1 : s1.files = s.files) (hu1 : s1.uploads = s.uploads)
    (hb1u : s1.blobs.Pairwise (fun a c => a.blobId ≠ c.blobId))
    (hb1 : ∀ x ∈ s1.blobs, ∃ y ∈ s.blobs, x.blobId = y.blobId ∧
      x.refCount = y.refCount + (if sf.blobId = y.blobId then 1 else 0))
    (h : (findUnique s1.files (fun f => f.path == dest.path) >>=
      fun destFile? => match destFile? with
      | some destFile => do
          let s2 ← patchFileAt s1 destFile.path
            (fun f => { f with blobId := sf.blobId, attributes := none })
          decrefBlob s2 destFile.blobId now
      | none => .ok (insertFile s1 ⟨dest.path, sf.blobId, none⟩)) = .ok s') :
    Inv s' := by
  rcases bind_ok_destruct h with ⟨obf, hfuf, h3⟩
  cases obf with
  | none =>
      injection h3 with h3
      subst h3
      unfold insertFile
      have hnod : ∀ x ∈ s.files, x.path ≠ dest.path := by
        intro x hx hc
        have := findUnique_ok_none_forall hfuf x (hf1.symm ▸ hx)
        simp [hc] at this
      have hcount : ∀ v, (countRefs
          (s1.files ++ [(⟨dest.path, sf.blobId, none⟩ : FileRec)]) v : Int) =
          (countRefs s.files v : Int) + (if sf.blobId = v then 1 else 0) := by
        intro v
        rw [countRefs_append, hf1, countRefs_cons]
        have hnil : countRefs ([] : List FileRec) v = 0 := rfl
        by_cases hv : sf.blobId = v
        · rw [if_pos hv, if_pos (by simpa using hv)]
          omega
        · rw [if_neg hv, if_neg (by simpa using hv)]
          omega
      refine ⟨?_, ?_, ?_, ?_⟩
      · rw [hf1]
        exact pathsUnique_append hp hnod
      · exact hb1u
      · intro bl hbl
        exact refcountOk_delta _ hrc hcount hb1 bl hbl
      · refine uploadsFresh_of_covers ?_ ?_ ?_ huf
        · intro u hu
          exact hu1 ▸ hu
        · intro x hx
          rcases hb1 x hx with ⟨y, hy, hid, _⟩
          exact ⟨y, hy, hid⟩
        · intro x hx
          rcases List.mem_append.mp hx with h1 | h1
          · exact ⟨x, hf1 ▸ h1, rfl⟩
          · rw [List.mem_singleton.mp h1]
            exact ⟨sf, hsf, rfl⟩
  | some df =>
      dsimp only at h3
      rcases bind_ok_destruct h3 with ⟨sp, hpatch, hdec⟩
      have hsp := patchFileAt_ok hpatch
      subst hsp
      have hframe := decrefBlob_frame hdec
      rcases mem_of_filter_singleton (findUnique_ok_some hfuf) with ⟨hdm, hdq⟩
      have hdp : df.path = dest.path := by simpa using hdq
      have hfild : s.files.filter (fun f => f.path == df.path) = [df] := by
        rw [hdp]
        exact hf1 ▸ findUnique_ok_some hfuf
      have hperm : List.Perm s.files
          (df :: s.files.filter (fun f => !(f.path == df.path))) :=
        filter_singleton_perm hfild
      have hfe : s'.files = s1.files.map (fun f => if f.path == df.path then
          { f with blobId := sf.blobId, attributes := none } else f) :=
        hframe.1
      have hue : s'.uploads = s.uploads := hframe.2.trans hu1
      have hid : ∀ a ∈ s.files.filter (fun f => !(f.path == df.path)),
          (if a.path == df.path then
            { a with blobId := sf.blobId, attributes := none } else a) = a := by
        intro a ha
        rw [if_neg (by simpa using (List.mem_filter.mp ha).2)]
      have hgdf : (if df.path == df.path then
          { df with blobId := sf.blobId, attributes := none } else df) =
          (⟨df.path, sf.blobId, none⟩ : FileRec) := by
        rw [if_pos (by simp)]
      have hcount : ∀ v, (countRefs (s1.files.map (fun f =>
          if f.path == df.path then
            { f with blobId := sf.blobId, attributes := none } else f)) v : Int) =
          (countRefs s.files v : Int) +
            ((if sf.blobId = v then 1 else 0) +
              (if df.blobId = v then -1 else 0)) := by
        intro v
        rw [hf1]
        have hpc := countRefs_perm (hperm.map (fun f =>
          if f.path == df.path then
            { f with blobId := sf.blobId, attributes := none } else f)) v
        rw [hpc, List.map_cons, hgdf, List.map_congr_left hid, List.map_id',
          countRefs_cons]
        have hoc := (countRefs_perm hperm v).trans (countRefs_cons df _ v)
        by_cases hv1 : sf.blobId = v
        · rw [if_pos hv1, if_pos (by simpa using hv1)]
          by_cases hv2 : df.blobId = v
          · rw [if_pos hv2]
            rw [if_pos (by simpa using hv2)] at hoc
            omega
          · rw [if_neg hv2]
            rw [if_neg (by simpa using hv2)] at hoc
            omega
        · rw [if_neg hv1, if_neg (by simpa using hv1)]
          by_cases hv2 : df.blobId = v
          · rw [if_pos hv2]
            rw [if_pos (by simpa using hv2)] at hoc
            omega
          · rw [if_neg hv2]
            rw [if_neg (by simpa using hv2)] at hoc
            omega
      have hbshape := decrefBlob_ok_shape hdec
      have hb' : ∀ x ∈ s'.blobs, ∃ y ∈ s.blobs, x.blobId = y.blobId ∧
          x.refCount = y.refCount +
            ((if sf.blobId = y.blobId then 1 else 0) +
              (if df.blobId = y.blobId then -1 else 0)) := by
        rcases hbshape with ⟨hbeq, hnob⟩ | hbmap
        · have hbeq' : s'.blobs = s1.blobs := hbeq
          have hnob' : ∀ x ∈ s1.blobs, x.blobId ≠ df.blobId := hnob
          intro x hx
          rcases hb1 x (hbeq' ▸ hx) with ⟨y, hy, hidy, hrc1⟩
          refine ⟨y, hy, hidy, ?_⟩
          have hdf0 : (if df.blobId = y.blobId then (-1 : Int) else 0) = 0 :=
            if_neg (fun hc => hnob' x (hbeq' ▸ hx) (hidy.trans hc.symm))
          omega
        · have hbmap' : s'.blobs = s1.blobs.map (fun x =>
              if x.blobId == df.blobId then
                { x with refCount := x.refCount - 1, updatedAt := now }
              else x) := hbmap
          intro x hx
          rcases blobs_dec_delta s1.blobs df.blobId now x (hbmap' ▸ hx) with
            ⟨z, hz, hidz, hrcz⟩
          rcases hb1 z hz with ⟨y, hy, hidy, hrcy⟩
          refine ⟨y, hy, hidz.trans hidy, ?_⟩
          rw [hidy] at hrcz
          omega
      have hbun : s'.blobs.Pairwise (fun a c => a.blobId ≠ c.blobId) := by
        rcases hbshape with ⟨hbeq, _⟩ | hbmap
        · have hbeq' : s'.blobs = s1.blobs := hbeq
          rw [hbeq']
          exact hb1u
        · have hbmap' : s'.blobs = s1.blobs.map (fun x =>
              if x.blobId == df.blobId then
                { x with refCount := x.refCount - 1, updatedAt := now }
              else x) := hbmap
          rw [hbmap']
          exact pairwise_key_map (fun x => by split <;> rfl) hb1u
      refine ⟨?_, hbun, ?_, ?_⟩
      · unfold pathsUnique
        rw [hfe, hf1]
        exact pairwise_key_map (fun x => by split <;> rfl) hp
      · intro bl hbl
        rw [hfe]
        exact refcountOk_delta _ hrc hcount hb' bl hbl
      · refine uploadsFresh_of_covers ?_ ?_ ?_ huf
        · intro u hu
          exact hue ▸ hu
        · intro x hx
          rcases hb' x hx with ⟨y, hy, hidy, _⟩
          exact ⟨y, hy, hidy⟩
        · intro x hx
          rw [hfe, hf1] at hx
          rcases List.mem_map.mp hx with ⟨y, hy, rfl⟩
          by_cases hyp : y.path == df.path
          · exact ⟨sf, hsf, by rw [if_pos hyp]⟩
          · exact ⟨y, hy, by rw [if_neg hyp]⟩

/-- The transact `copy` apply section preserves the state invariant. -/
theorem inv_applyCopy {s : St} {sf : FileRec} {dest : Dest} {now : Int}
    {s' : St} (hInv : Inv s) (hsf : sf ∈ s.files)
    (h : applyCopy s sf dest now = .ok s') : Inv s' := by
  obtain ⟨hp, hbu, hrc, huf⟩ := hInv
  unfold applyCopy at h
  rcases bind_ok_destruct h with ⟨obl, hfub, h2⟩
  cases obl with
  | some bl0 =>
      refine inv_applyCopy_tail (patchBlobs s sf.blobId (fun bl =>
        { bl with refCount := bl.refCount + 1, updatedAt := now }))
        hp hrc huf hsf rfl rfl ?_ ?_ h2
      · exact pairwise_key_map (fun x => by split <;> rfl) hbu
      · exact blobs_inc_delta s.blobs sf.blobId now
  | none =>
      refine inv_applyCopy_tail s hp hrc huf hsf rfl rfl hbu ?_ h2
      intro x hx
      refine ⟨x, hx, rfl, ?_⟩
      rw [if_neg (fun hc =>
        (by simpa using findUnique_ok_none_forall hfub x hx :
          x.blobId ≠ sf.blobId) hc.symm)]
      omega

/-- The consumed-upload tail of `commitOne`: only the upload table can
change, and afterwards no upload record carries the committed blobId. -/
theorem commit_upload_tail {s2 : St} {b : String} {s' : St}
    (h : (findUnique s2.uploads (fun u => u.blobId == b) >>= fun upload? =>
      match upload? with
      | some u => Except.ok (deleteUploadsByBlobId s2 u.blobId)
      | none => Except.ok s2) = .ok s') :
    s'.files = s2.files ∧ s'.blobs = s2.blobs ∧
    ∀ u ∈ s'.uploads, u ∈ s2.uploads ∧ u.blobId ≠ b := by
  rcases bind_ok_destruct h with ⟨up?, hfuu, h2⟩
  cases up? with
  | some u =>
      have hub : u.blobId = b := by
        simpa using (mem_of_filter_singleton (findUnique_ok_some hfuu)).2
      injection h2 with h2
      subst h2
      refine ⟨rfl, rfl, ?_⟩
      intro v hv
      have hv' : v ∈ s2.uploads.filter (fun x => !(x.blobId == u.blobId)) := hv
      have hm := List.mem_filter.mp hv'
      refine ⟨hm.1, ?_⟩
      have hne := hm.2
      rw [hub] at hne
      simpa using hne
  | none =>
      injection h2 with h2
      subst h2
      refine ⟨rfl, rfl, ?_⟩
      intro v hv
      refine ⟨hv, ?_⟩
      have := findUnique_ok_none_forall hfuu v hv
      simpa using this

/-- Accounting across a commit of one entry: the file-table counts move
by `δ`, the old blob records move by `δ` at their own blobId, and the one
new record (refCount 1) is backed by exactly one reference because its
blobId was fresh and `δ` adds one at it. -/
theorem refcountOk_newblob (δ : String → Int) {s : St}
    {files' : List FileRec} {blobs' : List BlobRec} {fb : String}
    {newbl : BlobRec} (hrc : refcountOk s)
    (hnewid : newbl.blobId = fb) (hnewrc : newbl.refCount = 1)
    (hcount : ∀ v, (countRefs files' v : Int) =
      (countRefs s.files v : Int) + δ v)
    (hzero : countRefs s.files fb = 0) (hδfb : δ fb = 1)
    (hblobs : ∀ x ∈ blobs', (∃ y ∈ s.blobs, x.blobId = y.blobId ∧
        x.refCount = y.refCount + δ y.blobId) ∨ x = newbl) :
    ∀ x ∈ blobs', x.refCount = (countRefs files' x.blobId : Int) := by
  intro x hx
  rcases hblobs x hx with ⟨y, hy, hid, hrcx⟩ | rfl
  · rw [hid]
    have hys := hrc y hy
    have hc := hcount y.blobId
    omega
  · rw [hnewid, hnewrc]
    have hc := hcount fb
    rw [hδfb] at hc
    omega

/-- `commitOne` preserves the invariant when the committed blobId is
fresh, and only introduces that blobId. -/
theorem inv_commitOne {s : St} {m : List (String × BlobMetadata)}
    {f : FileCommit} {now : Int} {s' : St} (hInv : Inv s)
    (hfreshB : ∀ x ∈ s.blobs, x.blobId ≠ f.blobId)
    (hfreshF : ∀ x ∈ s.files, x.blobId ≠ f.blobId)
    (h : commitOne s m f now = .ok s') :
    Inv s' ∧
    (∀ x ∈ s'.blobs, x.blobId = f.blobId ∨
      ∃ y ∈ s.blobs, x.blobId = y.blobId) ∧
    (∀ x ∈ s'.files, x.blobId = f.blobId ∨
      ∃ y ∈ s.files, x.blobId = y.blobId) ∧
    (∀ u ∈ s'.uploads, u ∈ s.uploads) := by
  obtain ⟨hp, hbu, hrc, huf⟩ := hInv
  have hzero : countRefs s.files f.blobId = 0 := countRefs_eq_zero hfreshF
  unfold commitOne at h
  cases hmg : mapGet m f.blobId with
  | none =>
      rw [hmg] at h
      exact absurd h (by simp)
  | some md =>
      rw [hmg] at h
      simp only [pure_eq_ok, bind_ok] at h
      rcases bind_ok_destruct h with ⟨ef?, hfu, h3⟩
      cases ef? with
      | some ef =>
          dsimp only at h3
          rcases bind_ok_destruct h3 with ⟨sp, hpatch, h4⟩
          rcases bind_ok_destruct h4 with ⟨s3, hdec, h5⟩
          have hsp := patchFileAt_ok hpatch
          subst hsp
          have htail := commit_upload_tail h5
          have hframe := decrefBlob_frame hdec
          have hfil : s.files.filter (fun fr => fr.path == f.path) = [ef] :=
            findUnique_ok_some hfu
          rcases mem_of_filter_singleton hfil with ⟨hefm, hefq⟩
          have hefp : ef.path = f.path := by simpa using hefq
          have hEne : ef.blobId ≠ f.blobId := hfreshF ef hefm
          have hfilE : s.files.filter (fun x => x.path == ef.path) = [ef] := by
            rw [hefp]
            exact hfil
          have hperm : List.Perm s.files
              (ef :: s.files.filter (fun x => !(x.path == ef.path))) :=
            filter_singleton_perm hfilE
          have hfe : s'.files = s.files.map (fun fr =>
              if fr.path == ef.path then
                { fr with blobId := f.blobId, attributes := f.attributes }
              else fr) := by
            rw [htail.1, hframe.1]
            rfl
          have hue : ∀ u ∈ s'.uploads, u ∈ s.uploads ∧ u.blobId ≠ f.blobId := by
            intro u hu
            rcases htail.2.2 u hu with ⟨hu1, hu2⟩
            exact ⟨hframe.2 ▸ hu1, hu2⟩
          have hgid : ∀ a ∈ s.files.filter (fun x => !(x.path == ef.path)),
              (if a.path == ef.path then
                { a with blobId := f.blobId, attributes := f.attributes }
              else a) = a := by
            intro a ha
            rw [if_neg (by simpa using (List.mem_filter.mp ha).2)]
          have hgef : (if ef.path == ef.path then
              { ef with blobId := f.blobId, attributes := f.attributes }
              else ef) = (⟨ef.path, f.blobId, f.attributes⟩ : FileRec) := by
            rw [if_pos (by simp)]
          have hcount : ∀ v, (countRefs (s.files.map (fun fr =>
              if fr.path == ef.path then
                { fr with blobId := f.blobId, attributes := f.attributes }
              else fr)) v : Int) = (countRefs s.files v : Int) +
              ((if f.blobId = v then 1 else 0) +
                (if ef.blobId = v then -1 else 0)) := by
            intro v
            have hpc := countRefs_perm (hperm.map (fun fr =>
              if fr.path == ef.path then
                { fr with blobId := f.blobId, attributes := f.attributes }
              else fr)) v
            rw [hpc, List.map_cons, hgef, List.map_congr_left hgid,
              List.map_id', countRefs_cons]
            have hoc := (countRefs_perm hperm v).trans (countRefs_cons ef _ v)
            by_cases hv1 : f.blobId = v
            · rw [if_pos hv1, if_pos (by simpa using hv1)]
              by_cases hv2 : ef.blobId = v
              · rw [if_pos hv2]
                rw [if_pos (by simpa using hv2)] at hoc
                omega
              · rw [if_neg hv2]
                rw [if_neg (by simpa using hv2)] at hoc
                omega
            · rw [if_neg hv1, if_neg (by simpa using hv1)]
              by_cases hv2 : ef.blobId = v
              · rw [if_pos hv2]
                rw [if_pos (by simpa using hv2)] at hoc
                omega
              · rw [if_neg hv2]
                rw [if_neg (by simpa using hv2)] at hoc
                omega
          have hbshape := decrefBlob_ok_shape hdec
          have hbdecomp : ∀ x ∈ s'.blobs,
              (∃ y ∈ s.blobs, x.blobId = y.blobId ∧
                x.refCount = y.refCount +
                  ((if f.blobId = y.blobId then 1 else 0) +
                    (if ef.blobId = y.blobId then -1 else 0))) ∨
              x = (⟨f.blobId, md.contentType, md.size, 1, now⟩ : BlobRec) := by
            intro x hx
            rw [htail.2.1] at hx
            rcases hbshape with ⟨hbeq, hnob⟩ | hbmap
            · have hbeq' : s3.blobs = s.blobs ++
                  [(⟨f.blobId, md.contentType, md.size, 1, now⟩ : BlobRec)] :=
                hbeq
              rw [hbeq'] at hx
              rcases List.mem_append.mp hx with h1 | h1
              · have hnob' : x.blobId ≠ ef.blobId :=
                  hnob x (List.mem_append.mpr (Or.inl h1))
                refine Or.inl ⟨x, h1, rfl, ?_⟩
                have hf0 : (if f.blobId = x.blobId then (1 : Int) else 0) = 0 :=
                  if_neg (fun hc => hfreshB x h1 hc.symm)
                have he0 : (if ef.blobId = x.blobId then (-1 : Int) else 0) = 0 :=
                  if_neg (fun hc => hnob' hc.symm)
                omega
              · exact Or.inr (List.mem_singleton.mp h1)
            · have hbmap' : s3.blobs = (s.blobs ++
                  [(⟨f.blobId, md.contentType, md.size, 1, now⟩ : BlobRec)]).map
                  (fun z => if z.blobId == ef.blobId then
                    { z with refCount := z.refCount - 1, updatedAt := now }
                  else z) := hbmap
              rw [hbmap', List.map_append] at hx
              rcases List.mem_append.mp hx with h1 | h1
              · rcases blobs_dec_delta s.blobs ef.blobId now x h1 with
                  ⟨y, hy, hid, hrcx⟩
                refine Or.inl ⟨y, hy, hid, ?_⟩
                have hf0 : (if f.blobId = y.blobId then (1 : Int) else 0) = 0 :=
                  if_neg (fun hc => hfreshB y hy hc.symm)
                omega
              · have h2 := List.mem_singleton.mp h1
                refine Or.inr ?_
                rw [h2]
                dsimp only
                rw [if_neg (by
                  simpa using (fun hcc : f.blobId = ef.blobId =>
                    hEne hcc.symm))]
          have hbcover : ∀ x ∈ s'.blobs, x.blobId = f.blobId ∨
              ∃ y ∈ s.blobs, x.blobId = y.blobId := by
            intro x hx
            rcases hbdecomp x hx with ⟨y, hy, hid, _⟩ | rfl
            · exact Or.inr ⟨y, hy, hid⟩
            · exact Or.inl rfl
          have hfcover : ∀ x ∈ s'.files, x.blobId = f.blobId ∨
              ∃ y ∈ s.files, x.blobId = y.blobId := by
            intro x hx
            rw [hfe] at hx
            rcases List.mem_map.mp hx with ⟨y, hy, rfl⟩
            by_cases hyp : y.path == ef.path
            · exact Or.inl (by rw [if_pos hyp])
            · exact Or.inr ⟨y, hy, by rw [if_neg hyp]⟩
          refine ⟨⟨?_, ?_, ?_, ?_⟩, hbcover, hfcover,
            fun u hu => (hue u hu).1⟩
          · unfold pathsUnique
            rw [hfe]
            exact pairwise_key_map (fun x => by split <;> rfl) hp
          · have hb1u : (s.blobs ++
                [(⟨f.blobId, md.contentType, md.size, 1, now⟩ : BlobRec)]).Pairwise
                (fun a c => a.blobId ≠ c.blobId) :=
              pairwise_key_append hbu (fun x hx => hfreshB x hx)
            unfold blobsUnique
            rw [htail.2.1]
            rcases hbshape with ⟨hbeq, _⟩ | hbmap
            · have hbeq' : s3.blobs = s.blobs ++
                  [(⟨f.blobId, md.contentType, md.size, 1, now⟩ : BlobRec)] :=
                hbeq
              rw [hbeq']
              exact hb1u
            · have hbmap' : s3.blobs = (s.blobs ++
                  [(⟨f.blobId, md.contentType, md.size, 1, now⟩ : BlobRec)]).map
                  (fun z => if z.blobId == ef.blobId then
                    { z with refCount := z.refCount - 1, updatedAt := now }
                  else z) := hbmap
              rw [hbmap']
              exact pairwise_key_map (fun x => by split <;> rfl) hb1u
          · intro bl hbl
            rw [hfe]
            refine refcountOk_newblob _ hrc rfl rfl hcount hzero ?_
              hbdecomp bl hbl
            rw [if_pos rfl, if_neg (fun hc => hEne hc)]
            omega
          · intro u hu
            rcases hue u hu with ⟨hus, hune⟩
            rcases huf u hus with ⟨hb0, hf0⟩
            constructor
            · intro x hx
              rcases hbcover x hx with h1 | ⟨y, hy, h1⟩
              · rw [h1]
                exact fun hcb => hune hcb.symm
              · rw [h1]
                exact hb0 y hy
            · intro x hx
              rcases hfcover x hx with h1 | ⟨y, hy, h1⟩
              · rw [h1]
                exact fun hcb => hune hcb.symm
              · rw [h1]
                exact hf0 y hy
      | none =>
          dsimp only [bind_ok] at h3
          have htail := commit_upload_tail h3
          have hnod : ∀ x ∈ s.files, x.path ≠ f.path := by
            intro x hx hc
            have := findUnique_ok_none_forall hfu x hx
            simp [hc] at this
          have hfe : s'.files = s.files ++
              [(⟨f.path, f.blobId, f.attributes⟩ : FileRec)] := htail.1
          have hbe : s'.blobs = s.blobs ++
              [(⟨f.blobId, md.contentType, md.size, 1, now⟩ : BlobRec)] :=
            htail.2.1
          have hue : ∀ u ∈ s'.uploads, u ∈ s.uploads ∧ u.blobId ≠ f.blobId :=
            fun u hu => ⟨(htail.2.2 u hu).1, (htail.2.2 u hu).2⟩
          have hcount : ∀ v, (countRefs (s.files ++
              [(⟨f.path, f.blobId, f.attributes⟩ : FileRec)]) v : Int) =
              (countRefs s.files v : Int) + (if f.blobId = v then 1 else 0) := by
            intro v
            rw [countRefs_append, countRefs_cons]
            have hnil : countRefs ([] : List FileRec) v = 0 := rfl
            by_cases hv : f.blobId = v
            · rw [if_pos hv, if_pos (by simpa using hv)]
              omega
            · rw [if_neg hv, if_neg (by simpa using hv)]
              omega
          have hbdecomp : ∀ x ∈ s'.blobs,
              (∃ y ∈ s.blobs, x.blobId = y.blobId ∧
                x.refCount = y.refCount +
                  (if f.blobId = y.blobId then 1 else 0)) ∨
              x = (⟨f.blobId, md.contentType, md.size, 1, now⟩ : BlobRec) := by
            intro x hx
            rw [hbe] at hx
            rcases List.mem_append.mp hx with h1 | h1
            · refine Or.inl ⟨x, h1, rfl, ?_⟩
              rw [if_neg (fun hc => hfreshB x h1 hc.symm)]
              omega
            · exact Or.inr (List.mem_singleton.mp h1)
          have hbcover : ∀ x ∈ s'.blobs, x.blobId = f.blobId ∨
              ∃ y ∈ s.blobs, x.blobId = y.blobId := by
            intro x hx
            rcases hbdecomp x hx with ⟨y, hy, hid, _⟩ | rfl
            · exact Or.inr ⟨y, hy, hid⟩
            · exact Or.inl rfl
          have hfcover : ∀ x ∈ s'.files, x.blobId = f.blobId ∨
              ∃ y ∈ s.files, x.blobId = y.blobId := by
            intro x hx
            rw [hfe] at hx
            rcases List.mem_append.mp hx with h1 | h1
            · exact Or.inr ⟨x, h1, rfl⟩
            · exact Or.inl (by rw [List.mem_singleton.mp h1])
          refine ⟨⟨?_, ?_, ?_, ?_⟩, hbcover, hfcover,
            fun u hu => (hue u hu).1⟩
          · unfold pathsUnique
            rw [hfe]
            exact pathsUnique_append hp hnod
          · unfold blobsUnique
            rw [hbe]
            exact pairwise_key_append hbu (fun x hx => hfreshB x hx)
          · intro bl hbl
            rw [hfe]
            refine refcountOk_newblob _ hrc rfl rfl hcount hzero ?_
              hbdecomp bl hbl
            rw [if_pos rfl]
          · intro u hu
            rcases hue u hu with ⟨hus, hune⟩
            rcases huf u hus with ⟨hb0, hf0⟩
            constructor
            · intro x hx
              rcases hbcover x hx with h1 | ⟨y, hy, h1⟩
              · rw [h1]
                exact fun hcb => hune hcb.symm
              · rw [h1]
                exact hb0 y hy
            · intro x hx
              rcases hfcover x hx with h1 | ⟨y, hy, h1⟩
              · rw [h1]
                exact fun hcb => hune hcb.symm
              · rw [h1]
                exact hf0 y hy

/-- The apply loop of `commitFiles` preserves the invariant when the
batch blobIds are pairwise distinct and all fresh for the start state. -/
theorem inv_commitLoop {m : List (String × BlobMetadata)} {now : Int} :
    ∀ (fs : List FileCommit) (s s' : St), Inv s →
      fs.Pairwise (fun a c => a.blobId ≠ c.blobId) →
      (∀ f ∈ fs, (∀ x ∈ s.blobs, x.blobId ≠ f.blobId) ∧
        (∀ x ∈ s.files, x.blobId ≠ f.blobId)) →
      fs.foldlM (fun st f => commitOne st m f now) s = .ok s' → Inv s' := by
  intro fs
  induction fs with
  | nil =>
      intro s s' hInv _ _ h
      injection h with h
      subst h
      exact hInv
  | cons f rest ih =>
      intro s s' hInv hpw hfresh h
      rw [List.foldlM_cons] at h
      rcases bind_ok_destruct h with ⟨s1, hone, hrest⟩
      rcases List.pairwise_cons.mp hpw with ⟨hfne, hpw2⟩
      rcases hfresh f (by simp) with ⟨hfb, hff⟩
      rcases inv_commitOne hInv hfb hff hone with ⟨hInv1, hbc, hfc, _⟩
      refine ih s1 s' hInv1 hpw2 ?_ hrest
      intro g hg
      rcases hfresh g (by simp [hg]) with ⟨hgb, hgf⟩
      constructor
      · intro x hx
        rcases hbc x hx with h1 | ⟨y, hy, h1⟩
        · rw [h1]
          exact hfne g hg
        · rw [h1]
          exact hgb y hy
      · intro x hx
        rcases hfc x hx with h1 | ⟨y, hy, h1⟩
        · rw [h1]
          exact hfne g hg
        · rw [h1]
          exact hgf y hy

/-- Every key the metadata map acquires during the collection pass comes
from some upload record. -/
theorem buildMetadataMap_keys {s : St} :
    ∀ {files : List FileCommit} {m0 m : List (String × BlobMetadata)},
      files.foldlM (fun mm f => do
        let upload? ← findUnique s.uploads (fun u => u.blobId == f.blobId)
        match upload? with
        | some u =>
            match u.contentType, u.size with
            | some ct, some sz => pure (mapSet mm f.blobId ⟨ct, sz⟩)
            | _, _ => pure mm
        | none => pure mm) m0 = .ok m →
      ∀ b, (mapGet m b).isSome → (mapGet m0 b).isSome ∨
        ∃ u ∈ s.uploads, u.blobId = b := by
  intro files
  induction files with
  | nil =>
      intro m0 m h b hsome
      injection h with h
      subst h
      exact Or.inl hsome
  | cons f fs ih =>
      intro m0 m h b hsome
      rw [List.foldlM_cons] at h
      rcases bind_ok_destruct h with ⟨m1, hg, hrest⟩
      rcases bind_ok_destruct hg with ⟨up?, hfu, h2⟩
      have hm1 : (mapGet m1 b).isSome → (mapGet m0 b).isSome ∨
          ∃ u ∈ s.uploads, u.blobId = b := by
        cases up? with
        | none =>
            injection h2 with h2
            subst h2
            exact Or.inl
        | some u =>
            rcases mem_of_filter_singleton (findUnique_ok_some hfu) with
              ⟨hum, huq⟩
            have hub : u.blobId = f.blobId := by simpa using huq
            obtain ⟨ub, ue, uct, usz⟩ := u
            cases uct with
            | none =>
                injection h2 with h2
                subst h2
                exact Or.inl
            | some ct =>
                cases usz with
                | none =>
                    injection h2 with h2
                    subst h2
                    exact Or.inl
                | some sz =>
                    injection h2 with h2
                    subst h2
                    intro hx
                    rw [mapGet_isSome_any, mapSet_any_key] at hx
                    rcases (Bool.or_eq_true _ _).mp hx with h1 | h1
                    · left
                      rw [mapGet_isSome_any]
                      exact h1
                    · right
                      refine ⟨⟨ub, ue, some ct, some sz⟩, hum, ?_⟩
                      exact hub.trans (by simpa using h1)
      rcases ih hrest b hsome with h1 | h1
      · exact hm1 h1
      · exact Or.inr h1

/-- A passing `checkMissing` means every entry's blobId got metadata. -/
theorem checkMissing_ok {files : List FileCommit}
    {m : List (String × BlobMetadata)} {u : Unit}
    (h : checkMissing files m = .ok u) :
    ∀ f ∈ files, (mapGet m f.blobId).isSome := by
  unfold checkMissing at h
  dsimp only at h
  split at h
  · intro f hf
    rename_i hempty
    have hnil := List.isEmpty_iff.mp hempty
    have hnotnone := List.filter_eq_nil_iff.mp hnil f hf
    cases hmg : mapGet m f.blobId with
    | none => exact absurd (by simp [hmg]) hnotnone
    | some v => rfl
  · exact absurd h (by simp)

/-- `commitFiles` preserves the invariant for every batch with pairwise
distinct blobIds. -/
theorem inv_commitFiles {fc : List FileCommit} {s : St} {now : Int}
    {s' : St} (hInv : Inv s)
    (hWF : fc.Pairwise (fun a c => a.blobId ≠ c.blobId))
    (h : commitFiles fc s now = .ok s') : Inv s' := by
  unfold commitFiles at h
  split at h
  · injection h with h
    subst h
    exact hInv
  · rcases bind_ok_destruct h with ⟨m, hm, h2⟩
    rcases bind_ok_destruct h2 with ⟨u1, hchk, h3⟩
    rcases bind_ok_destruct h3 with ⟨u2, hcas, h4⟩
    have hkeys := buildMetadataMap_keys (by
      have hm2 := hm
      unfold buildMetadataMap at hm2
      exact hm2)
    have hmiss := checkMissing_ok hchk
    refine inv_commitLoop fc s s' hInv hWF ?_ h4
    intro f hf
    rcases hkeys f.blobId (hmiss f hf) with h1 | ⟨u, hu, hub⟩
    · exact absurd h1 (by simp [mapGet])
    · rcases hInv.2.2.2 u hu with ⟨hb, hff⟩
      exact ⟨fun x hx hc => hb x hx (hc.trans hub.symm),
        fun x hx hc => hff x hx (hc.trans hub.symm)⟩

/-- Every transact operation preserves the invariant. -/
theorem inv_applyOperation {s : St} {op : Op} {i : Nat} {now : Int}
    {s' : St} (hInv : Inv s) (h : applyOperation s op i now = .ok s') :
    Inv s' := by
  have hp := hInv.1
  unfold applyOperation at h
  rcases bind_ok_destruct h with ⟨sf, hvs, h2⟩
  rw [validateSource_eq s op.source i hp] at hvs
  cases hfa : fileAt s op.source.path with
  | none =>
      rw [hfa] at hvs
      exact absurd hvs (by simp)
  | some sf0 =>
      rw [hfa] at hvs
      dsimp only at hvs
      by_cases hbl : sf0.blobId ≠ op.source.blobId
      · rw [if_pos hbl] at hvs
        exact absurd hvs (by simp)
      · rw [if_neg hbl] at hvs
        injection hvs with hvs
        subst hvs
        have hsfm : sf0 ∈ s.files := (fileAt_some hfa).1
        have hsfp : sf0.path = op.source.path := (fileAt_some hfa).2
        cases op with
        | move src dest =>
            rcases bind_ok_destruct h2 with ⟨u, hvd, hmv⟩
            exact inv_applyMove hInv hmv
        | copy src dest =>
            rcases bind_ok_destruct h2 with ⟨u, hvd, hcp⟩
            exact inv_applyCopy hInv hsfm hcp
        | delete src =>
            refine inv_deleteOp hInv ?_ h2
            rw [hsfp]
            exact hfa
        | setAttributes src attrs =>
            exact inv_applySetAttributes hInv h2

/-- The transact journal loop preserves the invariant. -/
theorem inv_goTransact {now : Int} :
    ∀ (ops : List Op) (i : Nat) (s s' : St), Inv s →
      goTransact ops i s now = .ok s' → Inv s' := by
  intro ops
  induction ops with
  | nil =>
      intro i s s' hInv h
      injection h with h
      subst h
      exact hInv
  | cons op rest ih =>
      intro i s s' hInv h
      unfold goTransact at h
      rcases bind_ok_destruct h with ⟨s1, hop, hrest⟩
      exact ih (i + 1) s1 s' (inv_applyOperation hInv hop) hrest

/-- One public call under rollback semantics preserves the invariant. -/
theorem inv_step {st : Step} {s : St} (hInv : Inv s) (hwf : stepWF st) :
    Inv (runMutation st.run s) := by
  unfold runMutation
  cases hr : st.run s with
  | error e => exact hInv
  | ok s2 =>
      cases st with
      | commit fc now =>
          exact inv_commitFiles hInv hwf
            (hr : commitFiles fc s now = .ok s2)
      | txn ops now =>
          have h2 : goTransact ops 0 s now = .ok s2 := hr
          exact inv_goTransact ops 0 s s2 hInv h2

/-- C1 counterexample: one `commitFiles` batch listing the same pending
blobId twice commits both entries, inserting two blob records with
refCount 1 each while two file records reference that blobId — refcount
conservation is violated after a single call from an invariant state. -/
theorem commit_duplicate_blobId_cx :
    Inv ⟨[], [], [⟨"B", 0, some "t", some 3⟩]⟩ ∧
    commitFiles [⟨"/a", "B", none, none⟩, ⟨"/b", "B", none, none⟩]
      ⟨[], [], [⟨"B", 0, some "t", some 3⟩]⟩ 5 =
      .ok ⟨[⟨"/a", "B", none⟩, ⟨"/b", "B", none⟩],
        [⟨"B", "t", 3, 1, 5⟩, ⟨"B", "t", 3, 1, 5⟩], []⟩ ∧
    ¬ refcountOk ⟨[⟨"/a", "B", none⟩, ⟨"/b", "B", none⟩],
      [⟨"B", "t", 3, 1, 5⟩, ⟨"B", "t", 3, 1, 5⟩], []⟩ := by decide

/-- C1 (amended): refcount conservation across call sequences whose
commit batches never list one blobId twice.  The invariant — unique
paths, unique blob records, refcount conservation, and freshness of
pending-upload blobIds — holds of the empty state and is preserved by
every `commitFiles` batch and every `transact` journal (move, copy,
delete, setAttributes), with throwing calls rolled back; in particular
each blob record's refCount equals the number of file records whose
blobId matches after every call.  (A batch repeating one blobId breaks
conservation — see the counterexample.) -/
theorem refcount_conservation :
    Inv ⟨[], [], []⟩ ∧
    ∀ steps s, Inv s → (∀ st ∈ steps, stepWF st) →
      Inv (runSteps steps s) ∧ refcountOk (runSteps steps s) := by
  refine ⟨by decide, ?_⟩
  intro steps
  induction steps with
  | nil =>
      intro s h _
      exact ⟨h, h.2.2.1⟩
  | cons st rest ih =>
      intro s h hwf
      have h1 : Inv (runMutation st.run s) :=
        inv_step h (hwf st (by simp))
      exact ih (runMutation st.run s) h1 (fun x hx => hwf x (by simp [hx]))

/-- C1 witness: the conservation theorem at a concrete two-call
sequence — a commit of one entry, then a transact copy — from a state
with one pending upload. -/
theorem refcount_conservation_witness :
    Inv (runSteps [Step.commit [⟨"/a", "B", none, none⟩] 5,
        Step.txn [Op.copy ⟨"/a", "B", "t", 3, none⟩ ⟨"/b", none⟩] 6]
        ⟨[], [], [⟨"B", 0, some "t", some 3⟩]⟩) ∧
    refcountOk (runSteps [Step.commit [⟨"/a", "B", none, none⟩] 5,
        Step.txn [Op.copy ⟨"/a", "B", "t", 3, none⟩ ⟨"/b", none⟩] 6]
        ⟨[], [], [⟨"B", 0, some "t", some 3⟩]⟩) :=
  refcount_conservation.2
    [Step.commit [⟨"/a", "B", none, none⟩] 5,
      Step.txn [Op.copy ⟨"/a", "B", "t", 3, none⟩ ⟨"/b", none⟩] 6]
    ⟨[], [], [⟨"B", 0, some "t", some 3⟩]⟩ (by decide) (by decide)

/-- C9 (amended): every configuration write updates the client-provided
fields (storage, TTLs, grace period) and preserves the operator-only
`freezeGc` flag by reading-then-merging; the bulk-delete opt-in flag
`allowClearAllFiles` is NOT preserved — it is absent from the written
value. -/
theorem ensureConfigStored_frame (cfg : ClientConfig) (prev : StoredValue) :
    (ensureConfigStored cfg (some prev)).storage = cfg.storage ∧
    (ensureConfigStored cfg (some prev)).uploadUrlTtl = cfg.uploadUrlTtl ∧
    (ensureConfigStored cfg (some prev)).downloadUrlTtl = cfg.downloadUrlTtl ∧
    (ensureConfigStored cfg (some prev)).blobGracePeriod = cfg.blobGracePeriod ∧
    (ensureConfigStored cfg (some prev)).freezeGc = prev.freezeGc ∧
    (ensureConfigStored cfg (some prev)).allowClearAllFiles = none :=
  ⟨rfl, rfl, rfl, rfl, rfl, rfl⟩

end ConvexFS
